import Mathlib

/-!
Shallow embedding of the DC (Distance Coding) and MTF (Move To Front)
transforms of rust-compress, src/dc.rs, together with proofs of the
specification claims about them.

Modelling conventions:
* `Symb = Fin 256` (the Rust `u8`), positions and distances are `Nat`
  (the Rust `uint`); the sentinel is the buffer length `N`.
* The 256-slot `symbols` array of `struct MTF` is a `List Symb`
  (length 256 in every real use).
* Array indexing that could panic, assertion failures and the unbounded
  scan loops are modelled with `Option` / explicit outcome constructors;
  the main decode loop takes a fuel argument (the Rust loop has no bound;
  any sufficiently large fuel is equivalent, and `decode_simple` passes
  one that provably suffices for its finite distance slice).
* The pull-based distance callback `fn_dist` is modelled as a state
  threading function `sigma -> Symb -> Except eps (Distance × sigma)`.
-/

/-- Number of symbols, the Rust static TotalSymbols = 0x100. -/
abbrev TotalSymbols : Nat := 256

/-- A Symbol is a byte (u8). -/
abbrev Symb := Fin TotalSymbols
abbrev Rank := Nat
abbrev Distance := Nat

namespace DC

/-- MoveToFront encoder/decoder: the rank-ordered list of symbols
(the 256-slot array MTF.symbols in the source). -/
abbrev MTF := List Symb

/-- MTF::new, a zero-filled table. -/
def MTF.new : MTF := List.replicate TotalSymbols 0

/-- MTF::reset_alphabetical: writes symbol i into slot i for every i;
for the 256-slot table the result is the identity permutation,
independently of the previous contents. -/
def MTF.reset_alphabetical (_m : MTF) : MTF := List.finRange TotalSymbols

/-- Inner loop of MTF::encode: slots below the current one have already
been shifted; next holds the symbol displaced from the previous slot.
Each step swaps the displaced symbol into the current slot and stops
when the displaced symbol is the one we are looking for.  Running past
the end of the table (symbol absent, impossible for a permutation) is
modelled as none. -/
def MTF.encodeFrom (sym next : Symb) : List Symb → Rank → Option (Rank × List Symb)
  | [], _ => none
  | s :: tail, rank =>
    if s = sym then some (rank, next :: tail)
    else
      match MTF.encodeFrom sym s tail (rank + 1) with
      | some (r, l) => some (r, next :: l)
      | none => none

/-- MTF::encode: encode a symbol into its rank, moving it to the front. -/
def MTF.encode (m : MTF) (sym : Symb) : Option (Rank × MTF) :=
  match m with
  | [] => none
  | next :: rest =>
    if next = sym then some (0, m)
    else
      match MTF.encodeFrom sym next rest 1 with
      | some (r, l) => some (r, sym :: l)
      | none => none

/-- MTF::decode: decode a rank into its symbol: read slot rank, shift
slots 0..rank-1 up by one, put the symbol at slot 0. -/
def MTF.decode (m : MTF) (rank : Rank) : Option (Symb × MTF) :=
  match m[rank]? with
  | none => none
  | some sym => some (sym, sym :: m.eraseIdx rank)

/-- State of the dc::encode scan: the caller-owned distance buffer, the
last array (last known position per symbol, sentinel N), the MTF table
and the unique list accumulated so far. -/
structure EncSt where
  distances : List Distance
  last : Symb → Nat
  mtf : MTF
  unique : List (Symb × Distance)

/-- One iteration of the main loop of dc::encode, at position i with
symbol sym.  The assert (i >= base+rank+1) is modelled: a violation
gives none. -/
def encStep (N : Nat) (st : EncSt) (i : Nat) (sym : Symb) : Option EncSt :=
  let distances := st.distances.set i N
  let base := st.last sym
  let last := Function.update st.last sym i
  if base = N then
    let rank := st.unique.length
    let mtf1 := st.mtf.set rank sym
    match MTF.encode mtf1 sym with
    | none => none
    | some (_, mtf2) =>
      some ⟨distances, last, mtf2, st.unique ++ [(sym, i)]⟩
  else
    match MTF.encode st.mtf sym with
    | none => none
    | some (rank, mtf2) =>
      if 0 < rank then
        if base + rank + 1 ≤ i then
          some ⟨distances.set base (i - base - rank - 1), last, mtf2, st.unique⟩
        else none
      else
        some ⟨distances, last, mtf2, st.unique⟩

/-- The main loop of dc::encode over the input, starting at position i. -/
def encScan (N : Nat) : List Symb → Nat → EncSt → Option EncSt
  | [], _, st => some st
  | sym :: rest, i, st =>
    match encStep N st i sym with
    | none => none
    | some st' => encScan N rest (i + 1) st'

/-- The closing sweep of dc::encode over (rank, sym) pairs taken from the
first unique-count slots of the MTF table: writes the virtual
end-of-buffer distance for each still-open symbol.  The assert
(N >= base+rank+1) is modelled as none on violation. -/
def encSweep (N : Nat) (last : Symb → Nat) : List (Nat × Symb) → List Distance → Option (List Distance)
  | [], distances => some distances
  | (rank, sym) :: rest, distances =>
    let base := last sym
    if base + rank + 1 ≤ N then
      encSweep N last rest (distances.set base (N - base - rank - 1))
    else none

/-- The final defensive assertion of dc::encode: no distance slot may be
left at sentinel N unless the position is immediately followed by a
repeat of the same symbol. -/
def finalCheck (input : List Symb) (distances : List Distance) (N : Nat) : Bool :=
  ((input.zip input.tail).zip distances).all fun p => !(p.2 == N && !(p.1.1 == p.1.2))

/-- dc::encode: encode a block of bytes, writing the distance stream into
the distances buffer; returns the final scan state with the swept
distances (the Rust function returns unique and mutates distances and
mtf in place).  none models a panic (assertion failure). -/
def encode (input : List Symb) (distances0 : List Distance) (mtf0 : MTF) : Option EncSt :=
  let N := input.length
  if distances0.length = N then
    match encScan N input 0 ⟨distances0, fun _ => N, mtf0, []⟩ with
    | none => none
    | some st =>
      match encSweep N st.last ((st.mtf.take st.unique.length).enum) st.distances with
      | none => none
      | some distances =>
        if finalCheck input distances N then
          some ⟨distances, st.last, st.mtf, st.unique⟩
        else none
  else none

/-- dc::encode_simple: allocate the buffers, run encode, and flatten the
result into (alphabet, initial distances then non-sentinel distances in
position order). -/
def encode_simple (input : List Symb) : Option (List Symb × List Distance) :=
  let N := input.length
  if N = 0 then some ([], [])
  else
    match encode input (List.replicate N 0) MTF.new with
    | none => none
    | some st =>
      some (st.unique.map Prod.fst,
            st.unique.map Prod.snd ++ st.distances.filter (fun d => !(d == N)))

/-- State visible to the caller of dc::decode: the output buffer, the
MTF table, the next array (next known position per symbol) and the
state of the pull-based distance source. -/
structure DecSt (σ : Type u) where
  output : List Symb
  mtf : MTF
  next : Symb → Nat
  s : σ

/-- Outcome of dc::decode: Ok(()), a propagated distance-source error,
a panic (failed assert or out-of-bounds indexing), or fuel exhaustion
(models a non-terminating loop).  Every outcome carries the state at
that point; on err the output holds exactly the writes already made. -/
inductive DcResult (ε : Type v) (σ : Type u) where
  | ok (st : DecSt σ)
  | err (e : ε) (st : DecSt σ)
  | panic (st : DecSt σ)
  | spin (st : DecSt σ)

/-- The fill loop of dc::decode: write sym into output positions
i, i+1, ..., stop-1.  Writing past the end of the buffer is the Rust
index panic, modelled as none. -/
def fillRun (output : List Symb) (i stop : Nat) (sym : Symb) : Option (List Symb) :=
  if i < stop then
    if i < output.length then fillRun (output.set i sym) (i + 1) stop sym
    else none
  else some output
termination_by stop - i

/-- The re-insertion scan of dc::decode: starting at rank 1, while
rank < E and future+rank exceeds the next position of the symbol at
rank, shift that symbol one slot down and advance.  Returns the final
rank and table; none models an out-of-bounds read. -/
def reinsert (next : Symb → Nat) (future E : Nat) (mtf : MTF) (rank : Nat) : Option (Nat × MTF) :=
  if _h : rank < E then
    match mtf[rank]? with
    | none => none
    | some w =>
      if next w < future + rank then
        reinsert next future E (mtf.set (rank - 1) w) (rank + 1)
      else some (rank, mtf)
  else some (rank, mtf)
termination_by E - rank

/-- Seeding loop for an explicit alphabet: for each (rank, sym) pair,
pull the initial distance for sym (propagating an error together with
the partially written state) and register sym at that rank. -/
def seedSome (fdist : σ → Symb → Except ε (Distance × σ)) :
    List (Nat × Symb) → (Symb → Nat) → MTF → σ →
    Except (ε × ((Symb → Nat) × MTF × σ)) ((Symb → Nat) × MTF × σ)
  | [], next, mtf, s => .ok (next, mtf, s)
  | (rank, sym) :: rest, next, mtf, s =>
    match fdist s sym with
    | .error e => .error (e, (next, mtf, s))
    | .ok (d, s') => seedSome fdist rest (Function.update next sym d) (mtf.set rank sym) s'

/-- Seeding loop for the implicit full alphabet (alphabet = None): for
every byte value i in order, pull its initial distance and put i into
slot i. -/
def seedFull (fdist : σ → Symb → Except ε (Distance × σ)) :
    List Symb → (Symb → Nat) → MTF → σ →
    Except (ε × ((Symb → Nat) × MTF × σ)) ((Symb → Nat) × MTF × σ)
  | [], next, mtf, s => .ok (next, mtf, s)
  | i :: rest, next, mtf, s =>
    match fdist s i with
    | .error e => .error (e, (next, mtf, s))
    | .ok (d, s') => seedFull fdist rest (Function.update next i d) (mtf.set i.val i) s'

/-- Erasing of unused symbols: zero the table slots from k up to
TotalSymbols-1. -/
def zeroTail (mtf : MTF) (k : Nat) : MTF :=
  (List.range' k (TotalSymbols - k)).foldl (fun m r => m.set r 0) mtf

/-- The main reconstruction loop of dc::decode, with fuel.  At each
iteration: take the symbol at rank 0, fill output up to the next
position of the symbol at rank 1, pull the next distance for the filled
symbol, and re-insert it by ascending next position.  After the loop,
the two defensive asserts of the source are checked. -/
def decodeLoop (fdist : σ → Symb → Except ε (Distance × σ)) (N E : Nat) :
    Nat → Nat → DecSt σ → DcResult ε σ
  | 0, _, st => .spin st
  | fuel + 1, i, st =>
    if i < N then
      match st.mtf[0]?, st.mtf[1]? with
      | some sym, some w1 =>
        let stop := st.next w1
        match fillRun st.output i stop sym with
        | none => .panic st
        | some out' =>
          let i' := max i stop
          let st1 : DecSt σ := ⟨out', st.mtf, st.next, st.s⟩
          match fdist st.s sym with
          | .error e => .err e st1
          | .ok (d, s') =>
            let future := stop + d
            match reinsert st.next future E st.mtf 1 with
            | none => .panic st1
            | some (rank, mtf') =>
              decodeLoop fdist N E fuel i'
                ⟨out', mtf'.set (rank - 1) sym,
                 Function.update st.next sym (future + rank - 1), s'⟩
      | _, _ => .panic st
    else
      if (List.finRange TotalSymbols).all
           (fun y => !(decide (st.next y < N) || decide (N + E ≤ st.next y))) then
        if i = N then .ok st else .panic st
      else .panic st

/-- dc::decode: decode a block of distances with a list of initial
symbols (or the implicit full alphabet). -/
def decode (fuel : Nat) (alphabet : Option (List Symb)) (output : List Symb)
    (mtf : MTF) (fdist : σ → Symb → Except ε (Distance × σ)) (s : σ) : DcResult ε σ :=
  let N := output.length
  let next0 : Symb → Nat := fun _ => N
  match alphabet with
  | some [] =>
    if N = 0 then .ok ⟨output, mtf, next0, s⟩ else .panic ⟨output, mtf, next0, s⟩
  | some [sym] =>
    .ok ⟨output.map (fun _ => sym), mtf, next0, s⟩
  | some list =>
    match seedSome fdist list.enum next0 mtf s with
    | .error (e, (next, mtf', s')) => .err e ⟨output, mtf', next, s'⟩
    | .ok (next, mtf', s') =>
      decodeLoop fdist N list.length fuel 0 ⟨output, zeroTail mtf' list.length, next, s'⟩
  | none =>
    match seedFull fdist (List.finRange TotalSymbols) next0 mtf s with
    | .error (e, (next, mtf', s')) => .err e ⟨output, mtf', next, s'⟩
    | .ok (next, mtf', s') =>
      decodeLoop fdist N TotalSymbols fuel 0 ⟨output, mtf', next, s'⟩

/-- The io error used by decode_simple when the distance slice is
exhausted (io::standard_error(io::EndOfFile)). -/
inductive IoError where
  | endOfFile
deriving DecidableEq

/-- The pull-based distance source that dc::decode_simple builds over
its flat distance slice: a counter di is incremented on every request;
the request returns distances[di-1], or EndOfFile past the end.  The
requested symbol is ignored. -/
def simpleSource (distances : List Distance) : Nat → Symb → Except IoError (Distance × Nat) :=
  fun di _sym =>
    if h : di + 1 > distances.length then .error .endOfFile
    else .ok (distances.get ⟨di, by omega⟩, di + 1)

/-- Symbol-by-symbol MTF encoding of a whole sequence, recording the rank
and the table after every step (the tables let us state the lockstep
property of the claim). -/
def MTF.encodeAll : List Symb → MTF → Option (List Rank × List MTF)
  | [], _ => some ([], [])
  | sym :: rest, m =>
    match MTF.encode m sym with
    | none => none
    | some (r, m') =>
      match MTF.encodeAll rest m' with
      | none => none
      | some (rs, ms) => some (r :: rs, m' :: ms)

/-- Rank-by-rank MTF decoding of a whole sequence, recording the symbol
and the table after every step. -/
def MTF.decodeAll : List Rank → MTF → Option (List Symb × List MTF)
  | [], _ => some ([], [])
  | r :: rest, m =>
    match MTF.decode m r with
    | none => none
    | some (sym, m') =>
      match MTF.decodeAll rest m' with
      | none => none
      | some (syms, ms) => some (sym :: syms, m' :: ms)

/-- dc::decode_simple: decode into a fresh zeroed buffer of length N,
pulling from the flat distance slice; .unwrap() panics on error, so any
non-ok outcome is none.  The fuel distances.length + 2 provably covers
every run of the loop against this finite source. -/
def decode_simple (N : Nat) (alphabet : List Symb) (distances : List Distance) : Option (List Symb) :=
  let output := List.replicate N 0
  match decode (distances.length + 2) (some alphabet) output MTF.new (simpleSource distances) 0 with
  | .ok st => some st.output
  | _ => none

/-- The sub-list of symbols occurring strictly between positions p and
j of x (positions p+1 .. j-1). -/
def segment (x : List Symb) (p j : Nat) : List Symb := (x.take j).drop (p + 1)

/-- Number of distinct symbols occurring strictly between positions p
and j of x. -/
def distinctBetween (x : List Symb) (p j : Nat) : Nat := (segment x p j).dedup.length

/-- Invariant of the dc::encode scan after processing the first i
positions of input x, with d0 the initial contents of the caller-owned
distance buffer.  last records the most recent occurrence below i of
each symbol (sentinel x.length when unseen); the first unique-count
slots of the MTF table list exactly the seen symbols in strictly
decreasing order of their last occurrence; unique pairs each seen
symbol with its first occurrence, in first-occurrence order; and the
distance buffer holds, for every already-closed gap, the encoded
distance (sentinel for adjacent repeats), with slots at or above i
still untouched. -/
structure EncInv (x : List Symb) (d0 : List Distance) (i : Nat) (st : EncSt) : Prop where
  hi : i ≤ x.length
  hdlen : st.distances.length = x.length
  hlast : ∀ s : Symb, st.last s = x.length ∨ (st.last s < i ∧ x[st.last s]? = some s)
  hmax : ∀ (s : Symb) (q : Nat), q < i → x[q]? = some s → q ≤ st.last s ∧ st.last s < i
  hmlen : st.mtf.length = TotalSymbols
  hU : st.unique.length ≤ TotalSymbols
  hWmem : ∀ s : Symb, s ∈ st.mtf.take st.unique.length ↔ st.last s ≠ x.length
  hWsort : List.Pairwise (fun a b => st.last b < st.last a) (st.mtf.take st.unique.length)
  huniq_first : ∀ p ∈ st.unique, x[p.2]? = some p.1 ∧ ∀ q, q < p.2 → x[q]? ≠ some p.1
  huniq_inc : List.Pairwise (fun a b => a.2 < b.2) st.unique
  huniq_lt : ∀ p ∈ st.unique, p.2 < i
  huniq_mem : ∀ s : Symb, (∃ f, (s, f) ∈ st.unique) ↔ st.last s ≠ x.length
  hd0 : ∀ p, i ≤ p → st.distances[p]? = d0[p]?
  hdist : ∀ (p : Nat) (s : Symb), p < i → x[p]? = some s →
    ((∀ j, p < j → j < i → x[j]? ≠ some s) → st.distances[p]? = some x.length) ∧
    (∀ j, p < j → j < i → x[j]? = some s → (∀ q, p < q → q < j → x[q]? ≠ some s) →
      st.distances[p]? = some (if j = p + 1 then x.length
        else j - p - distinctBetween x p j - 1))

/-- A concrete mid-scan encoder state (input 010, two symbols seen),
used to witness reachable-state claims on concrete inputs. -/
def encWitnessState : EncSt :=
  ⟨[3, 3, 0], Function.update (Function.update (fun _ => 3) (0 : Symb) 0) (1 : Symb) 1,
   (1 : Symb) :: (0 : Symb) :: List.replicate 254 0, [(0, 0), (1, 1)]⟩

/-- Position of the first occurrence of s in x at or after position i
(x.length when there is none, since indexOf defaults to the length). -/
def nextPos (x : List Symb) (i : Nat) (s : Symb) : Nat := i + List.indexOf s (x.drop i)

/-- Position of the last occurrence of s in x (meaningful when s occurs). -/
def lastPos (x : List Symb) (s : Symb) : Nat := x.length - 1 - List.indexOf s x.reverse

/-- Number of distinct symbols of x whose last occurrence precedes the
last occurrence of s. -/
def deadIdx (x : List Symb) (s : Symb) : Nat :=
  (x.dedup.filter (fun t => decide (lastPos x t < lastPos x s))).length

/-- The tracked next-occurrence value that decode maintains for each
symbol when the output is filled up to position i: the true next
occurrence while the symbol still occurs, and a virtual position beyond
the buffer, ordered by death order, afterwards. -/
def nextSpec (x : List Symb) (i : Nat) (s : Symb) : Nat :=
  if s ∈ x.drop i then nextPos x i s else x.length + deadIdx x s

/-- Invariant of the dc::decode main loop against the encoder input x,
the swept encoder distance buffer D2 and the flat distance slice dists
handed to decode_simple, at fill position i: the output buffer holds
x below i; the table window of width U (number of distinct symbols of
x) holds exactly the symbols of x sorted strictly by their tracked next
position; the next array agrees with the tracked next position
everywhere; and the distances still to be pulled are exactly the
non-sentinel encoder distances from position i on. -/
structure DecInv (x : List Symb) (D2 dists : List Distance) (i : Nat)
    (st : DecSt Nat) : Prop where
  hiN : i ≤ x.length
  holen : st.output.length = x.length
  hout : ∀ q, q < i → st.output[q]? = x[q]?
  hmlen : st.mtf.length = TotalSymbols
  hWmem : ∀ s, s ∈ st.mtf.take x.dedup.length ↔ s ∈ x
  hWsort : List.Pairwise (fun a b => nextSpec x i a < nextSpec x i b)
    (st.mtf.take x.dedup.length)
  hnext : ∀ s, st.next s = nextSpec x i s
  hdi : dists.drop st.s = (D2.drop i).filter (fun d => !(d == x.length))

/-- Unfolding lemma for decode on the empty alphabet. -/
theorem decode_some_nil {σ : Type u} {ε : Type v} (fuel : Nat) (output : List Symb)
    (mtf : MTF) (fdist : σ → Symb → Except ε (Distance × σ)) (s : σ) :
    decode fuel (some []) output mtf fdist s
      = if output.length = 0
          then .ok ⟨output, mtf, fun _ => output.length, s⟩
          else .panic ⟨output, mtf, fun _ => output.length, s⟩ := rfl

/-- Unfolding lemma for decode on a singleton alphabet. -/
theorem decode_some_single {σ : Type u} {ε : Type v} (fuel : Nat) (output : List Symb)
    (mtf : MTF) (fdist : σ → Symb → Except ε (Distance × σ)) (s : σ) (sym : Symb) :
    decode fuel (some [sym]) output mtf fdist s
      = .ok ⟨output.map (fun _ => sym), mtf, fun _ => output.length, s⟩ := rfl

/-- Unfolding lemma for decode on an alphabet of two or more symbols. -/
theorem decode_some_cons2 {σ : Type u} {ε : Type v} (fuel : Nat) (output : List Symb)
    (mtf : MTF) (fdist : σ → Symb → Except ε (Distance × σ)) (s : σ)
    (a b : Symb) (rest : List Symb) :
    decode fuel (some (a :: b :: rest)) output mtf fdist s
      = match seedSome fdist (a :: b :: rest).enum (fun _ => output.length) mtf s with
        | .error (e, (next, mtf', s')) => .err e ⟨output, mtf', next, s'⟩
        | .ok (next, mtf', s') =>
          decodeLoop fdist output.length (a :: b :: rest).length fuel 0
            ⟨output, zeroTail mtf' (a :: b :: rest).length, next, s'⟩ := rfl

set_option maxRecDepth 4000 in
/-- Unfolding lemma for decode with the implicit full alphabet. -/
theorem decode_none_eq {σ : Type u} {ε : Type v} (fuel : Nat) (output : List Symb)
    (mtf : MTF) (fdist : σ → Symb → Except ε (Distance × σ)) (s : σ) :
    decode fuel none output mtf fdist s
      = match seedFull fdist (List.finRange TotalSymbols) (fun _ => output.length) mtf s with
        | .error (e, (next, mtf', s')) => .err e ⟨output, mtf', next, s'⟩
        | .ok (next, mtf', s') =>
          decodeLoop fdist output.length TotalSymbols fuel 0 ⟨output, mtf', next, s'⟩ := rfl

/-! Characterisation of the MTF operations. -/

theorem MTF.encodeFrom_spec (sym : Symb) (l : List Symb) :
    ∀ (next : Symb) (rank : Rank), sym ∈ l →
      MTF.encodeFrom sym next l rank
        = some (rank + l.indexOf sym, next :: l.eraseIdx (l.indexOf sym)) := by
  induction l with
  | nil => intro next rank h; cases h
  | cons s tail ih =>
    intro next rank h
    by_cases hs : s = sym
    · subst hs
      simp [MTF.encodeFrom, List.indexOf_cons_self]
    · have hmem : sym ∈ tail := by
        cases List.mem_cons.mp h with
        | inl h1 => exact absurd h1.symm hs
        | inr h1 => exact h1
      rw [List.indexOf_cons_ne _ hs]
      simp only [MTF.encodeFrom, if_neg hs, ih s (rank + 1) hmem]
      simp only [Nat.succ_eq_add_one, List.eraseIdx_cons_succ]
      have harith : rank + 1 + List.indexOf sym tail
          = rank + (List.indexOf sym tail + 1) := by
        rw [Nat.add_assoc, Nat.add_comm 1]
      rw [harith]

theorem MTF.encode_spec (m : MTF) (sym : Symb) (h : sym ∈ m) :
    MTF.encode m sym = some (m.indexOf sym, sym :: m.eraseIdx (m.indexOf sym)) := by
  match m with
  | [] => cases h
  | next :: rest =>
    by_cases hn : next = sym
    · subst hn
      simp [MTF.encode, List.indexOf_cons_self]
    · have hmem : sym ∈ rest := by
        cases List.mem_cons.mp h with
        | inl h1 => exact absurd h1.symm hn
        | inr h1 => exact h1
      rw [MTF.encode, if_neg hn, MTF.encodeFrom_spec sym rest next 1 hmem,
        List.indexOf_cons_ne _ hn]
      simp only [Nat.succ_eq_add_one, List.eraseIdx_cons_succ, Nat.add_comm 1]

theorem MTF.decode_spec (m : MTF) (rank : Rank) (h : rank < m.length) :
    MTF.decode m rank = some (m.get ⟨rank, h⟩, m.get ⟨rank, h⟩ :: m.eraseIdx rank) := by
  rw [MTF.decode]
  simp [List.getElem?_eq_getElem h]

/-- Moving an element of a list to the front is a permutation. -/
theorem cons_eraseIdx_perm (m : List Symb) (i : Nat) (h : i < m.length) :
    (m.get ⟨i, h⟩ :: m.eraseIdx i).Perm m := by
  conv_rhs => rw [← List.take_append_drop i m, List.drop_eq_getElem_cons h]
  rw [List.eraseIdx_eq_take_drop_succ]
  exact (List.perm_middle).symm

/-- The single-step lockstep property: encoding a symbol present in the
table and decoding the produced rank from the same table give back the
same symbol and the same updated table. -/
theorem MTF.decode_inverts_encode (m : MTF) (sym : Symb) (h : sym ∈ m) :
    MTF.encode m sym = some (m.indexOf sym, sym :: m.eraseIdx (m.indexOf sym)) ∧
    MTF.decode m (m.indexOf sym) = some (sym, sym :: m.eraseIdx (m.indexOf sym)) := by
  have hlt : m.indexOf sym < m.length := List.indexOf_lt_length.mpr h
  refine ⟨MTF.encode_spec m sym h, ?_⟩
  rw [MTF.decode_spec m _ hlt, List.indexOf_get]

/-- Tables reachable from a full permutation stay full permutations. -/
theorem encode_result_perm (m : MTF) (sym : Symb) (h : sym ∈ m) :
    (sym :: m.eraseIdx (m.indexOf sym)).Perm m := by
  have hlt : m.indexOf sym < m.length := List.indexOf_lt_length.mpr h
  have := cons_eraseIdx_perm m (m.indexOf sym) hlt
  rwa [List.indexOf_get] at this

/-- Generalised MTF round trip: from any table that is a permutation of
the full alphabet, encodeAll succeeds, decodeAll of the ranks succeeds,
the decoded sequence is the original one and the intermediate tables
coincide step by step. -/
theorem mtf_roundtrip_gen (x : List Symb) :
    ∀ m : MTF, m.Perm (List.finRange TotalSymbols) →
      ∃ rs ts, MTF.encodeAll x m = some (rs, ts) ∧
        MTF.decodeAll rs m = some (x, ts) := by
  induction x with
  | nil => intro m _; exact ⟨[], [], rfl, rfl⟩
  | cons sym rest ih =>
    intro m hm
    have hmem : sym ∈ m := hm.mem_iff.mpr (List.mem_finRange sym)
    obtain ⟨henc, hdec⟩ := MTF.decode_inverts_encode m sym hmem
    have hperm : (sym :: m.eraseIdx (m.indexOf sym)).Perm (List.finRange TotalSymbols) :=
      (encode_result_perm m sym hmem).trans hm
    obtain ⟨rs, ts, hrs, hts⟩ := ih (sym :: m.eraseIdx (m.indexOf sym)) hperm
    refine ⟨m.indexOf sym :: rs, (sym :: m.eraseIdx (m.indexOf sym)) :: ts, ?_, ?_⟩
    · simp only [MTF.encodeAll, henc, hrs]
    · simp only [MTF.decodeAll, hdec, hts]

/-- The alphabetically reset table is the identity permutation. -/
theorem reset_perm : (MTF.reset_alphabetical MTF.new).Perm (List.finRange TotalSymbols) :=
  List.Perm.refl _

/-! Error propagation through the decode phases. -/

theorem seedSome_error {σ : Type u} {ε : Type v} (fdist : σ → Symb → Except ε (Distance × σ)) :
    ∀ (L : List (Nat × Symb)) (next : Symb → Nat) (mtf : MTF) (s : σ)
      (e : ε) (next' : Symb → Nat) (mtf' : MTF) (s' : σ),
      seedSome fdist L next mtf s = .error (e, (next', mtf', s')) →
        ∃ sym, fdist s' sym = .error e := by
  intro L
  induction L with
  | nil => intro next mtf s e n' m' s' h; cases h
  | cons p rest ih =>
    intro next mtf s e n' m' s' h
    obtain ⟨rank, sym⟩ := p
    rw [seedSome] at h
    cases hf : fdist s sym with
    | error e0 =>
      rw [hf] at h
      cases h
      exact ⟨sym, hf⟩
    | ok v =>
      rw [hf] at h
      exact ih _ _ _ _ _ _ _ h

theorem seedFull_error {σ : Type u} {ε : Type v} (fdist : σ → Symb → Except ε (Distance × σ)) :
    ∀ (L : List Symb) (next : Symb → Nat) (mtf : MTF) (s : σ)
      (e : ε) (next' : Symb → Nat) (mtf' : MTF) (s' : σ),
      seedFull fdist L next mtf s = .error (e, (next', mtf', s')) →
        ∃ sym, fdist s' sym = .error e := by
  intro L
  induction L with
  | nil => intro next mtf s e n' m' s' h; cases h
  | cons i rest ih =>
    intro next mtf s e n' m' s' h
    rw [seedFull] at h
    cases hf : fdist s i with
    | error e0 =>
      rw [hf] at h
      cases h
      exact ⟨i, hf⟩
    | ok v =>
      rw [hf] at h
      exact ih _ _ _ _ _ _ _ h

theorem fillRun_length (sym : Symb) :
    ∀ (stop i : Nat) (output output' : List Symb),
      fillRun output i stop sym = some output' → output'.length = output.length := by
  intro stop
  have hgen : ∀ k (i : Nat), stop - i ≤ k → ∀ output output',
      fillRun output i stop sym = some output' → output'.length = output.length := by
    intro k
    induction k with
    | zero =>
      intro i hk output output' h
      rw [fillRun, if_neg (by omega)] at h
      cases h; rfl
    | succ k ih =>
      intro i hk output output' h
      by_cases hi : i < stop
      · rw [fillRun, if_pos hi] at h
        by_cases hl : i < output.length
        · rw [if_pos hl] at h
          have := ih (i + 1) (by omega) _ _ h
          rw [this, List.length_set]
        · rw [if_neg hl] at h; cases h
      · rw [fillRun, if_neg hi] at h
        cases h; rfl
  exact fun i => hgen (stop - i) i (Nat.le_refl _)

theorem decodeLoop_err {σ : Type u} {ε : Type v} (fdist : σ → Symb → Except ε (Distance × σ))
    (N E : Nat) :
    ∀ (fuel i : Nat) (st : DecSt σ) (e : ε) (st' : DecSt σ),
      decodeLoop fdist N E fuel i st = .err e st' →
        (∃ sym, fdist st'.s sym = .error e) ∧ st'.output.length = st.output.length := by
  intro fuel
  induction fuel with
  | zero => intro i st e st' h; cases h
  | succ fuel ih =>
    intro i st e st' h
    rw [decodeLoop] at h
    by_cases hi : i < N
    · rw [if_pos hi] at h
      cases h0 : st.mtf[0]? with
      | none => rw [h0] at h; cases h
      | some sym =>
        cases h1 : st.mtf[1]? with
        | none => rw [h0, h1] at h; cases h
        | some w1 =>
          rw [h0, h1] at h
          dsimp only at h
          cases hfill : fillRun st.output i (st.next w1) sym with
          | none => rw [hfill] at h; cases h
          | some out' =>
            rw [hfill] at h
            dsimp only at h
            have hlen : out'.length = st.output.length := fillRun_length sym _ _ _ _ hfill
            cases hf : fdist st.s sym with
            | error e0 =>
              rw [hf] at h
              dsimp only at h
              cases h
              exact ⟨⟨sym, hf⟩, hlen⟩
            | ok v =>
              obtain ⟨d, s1⟩ := v
              rw [hf] at h
              dsimp only at h
              cases hre : reinsert st.next (st.next w1 + d) E st.mtf 1 with
              | none => rw [hre] at h; cases h
              | some p =>
                obtain ⟨rank, mtf1⟩ := p
                rw [hre] at h
                dsimp only at h
                have := ih _ _ _ _ h
                exact ⟨this.1, this.2.trans hlen⟩
    · rw [if_neg hi] at h
      by_cases hall : (List.finRange TotalSymbols).all
          (fun y => !(decide (st.next y < N) || decide (N + E ≤ st.next y))) = true
      · rw [if_pos hall] at h
        by_cases hiN : i = N
        · rw [if_pos hiN] at h; cases h
        · rw [if_neg hiN] at h; cases h
      · rw [if_neg hall] at h; cases h

/-- When the positions of a symbol list agree with the values of its
entries, the explicit-alphabet seeding loop coincides with the
full-alphabet seeding loop. -/
theorem seedSome_enumFrom_eq_seedFull {σ : Type u} {ε : Type v}
    (fdist : σ → Symb → Except ε (Distance × σ)) :
    ∀ (L : List Symb) (k : Nat),
      (∀ (j : Nat) (h : j < L.length), (L.get ⟨j, h⟩).val = k + j) →
      ∀ (next : Symb → Nat) (mtf : MTF) (s : σ),
        seedSome fdist (L.enumFrom k) next mtf s = seedFull fdist L next mtf s := by
  intro L
  induction L with
  | nil => intro k _ next mtf s; rfl
  | cons i rest ih =>
    intro k hk next mtf s
    have hival : i.val = k := by
      have := hk 0 (by simp)
      simpa using this
    show seedSome fdist ((k, i) :: rest.enumFrom (k + 1)) next mtf s = _
    rw [seedSome, seedFull]
    cases hf : fdist s i with
    | error e => rfl
    | ok v =>
      rw [hival]
      exact ih (k + 1) (fun j h => by
        have := hk (j + 1) (by simpa using Nat.succ_lt_succ h)
        simpa [Nat.add_comm, Nat.add_assoc, Nat.add_left_comm] using this) _ _ _

/-- Decode on any explicit alphabet with at least two symbols takes the
general path. -/
theorem decode_some_ge2 {σ : Type u} {ε : Type v} (fuel : Nat) (output : List Symb)
    (mtf : MTF) (fdist : σ → Symb → Except ε (Distance × σ)) (s : σ)
    (list : List Symb) (hlen : 2 ≤ list.length) :
    decode fuel (some list) output mtf fdist s
      = match seedSome fdist list.enum (fun _ => output.length) mtf s with
        | .error (e, (next, mtf', s')) => .err e ⟨output, mtf', next, s'⟩
        | .ok (next, mtf', s') =>
          decodeLoop fdist output.length list.length fuel 0
            ⟨output, zeroTail mtf' list.length, next, s'⟩ := by
  match list with
  | [] => simp at hlen
  | [a] => simp at hlen
  | a :: b :: rest => exact decode_some_cons2 fuel output mtf fdist s a b rest

end DC

/-- Claim C9: whenever the pull-based distance source fails during
decode (while seeding or in the main loop), decode returns exactly that
error as its result; the source state returned is the one passed to the
failing request (so no request is made after the failure), the failing
request is a genuine source call producing that very error, and the
output buffer keeps its length, holding exactly the writes already made.
Moreover, if the very first request fails, nothing at all has been
written: the output, table and source state come back untouched. -/
theorem c9_error_propagation {σ : Type u} {ε : Type v} (fuel : Nat)
    (alphabet : Option (List Symb)) (output : List Symb) (mtf : DC.MTF)
    (fdist : σ → Symb → Except ε (Distance × σ)) (s : σ) (e : ε) (st : DC.DecSt σ) :
    (DC.decode fuel alphabet output mtf fdist s = .err e st →
       (∃ sym, fdist st.s sym = .error e) ∧ st.output.length = output.length) ∧
    (∀ a b rest, alphabet = some (a :: b :: rest) → (∀ y, fdist s y = .error e) →
       DC.decode fuel alphabet output mtf fdist s
         = .err e ⟨output, mtf, fun _ => output.length, s⟩) := by
  constructor
  · intro h
    match alphabet with
    | some [] =>
      rw [DC.decode_some_nil] at h
      by_cases h0 : output.length = 0
      · rw [if_pos h0] at h; cases h
      · rw [if_neg h0] at h; cases h
    | some [sym] =>
      rw [DC.decode_some_single] at h
      cases h
    | some (a :: b :: rest) =>
      rw [DC.decode_some_cons2] at h
      cases hseed : DC.seedSome fdist (a :: b :: rest).enum
          (fun _ => output.length) mtf s with
      | error p =>
        obtain ⟨e0, n0, m0, s0⟩ := p
        rw [hseed] at h
        dsimp only at h
        cases h
        exact ⟨DC.seedSome_error fdist _ _ _ _ _ _ _ _ hseed, rfl⟩
      | ok v =>
        obtain ⟨n0, m0, s0⟩ := v
        rw [hseed] at h
        dsimp only at h
        exact DC.decodeLoop_err fdist _ _ _ _ _ _ _ h
    | none =>
      rw [DC.decode_none_eq] at h
      cases hseed : DC.seedFull fdist (List.finRange TotalSymbols)
          (fun _ => output.length) mtf s with
      | error p =>
        obtain ⟨e0, n0, m0, s0⟩ := p
        rw [hseed] at h
        dsimp only at h
        cases h
        exact ⟨DC.seedFull_error fdist _ _ _ _ _ _ _ _ hseed, rfl⟩
      | ok v =>
        obtain ⟨n0, m0, s0⟩ := v
        rw [hseed] at h
        dsimp only at h
        exact DC.decodeLoop_err fdist _ _ _ _ _ _ _ h
  · rintro a b rest rfl hdead
    rw [DC.decode_some_cons2]
    have hstep : DC.seedSome fdist ((a :: b :: rest).enum) (fun _ => output.length) mtf s
        = .error (e, (fun _ => output.length, mtf, s)) := by
      rw [List.enum_cons]
      rw [DC.seedSome, hdead a]
    rw [hstep]

/-- Witness for C9: a two-symbol alphabet with a source that always
fails; decode reports the error with nothing written. -/
theorem c9_error_propagation_witness :
    (DC.decode 3 (some [4, 9]) [0, 0, 0] DC.MTF.new
        (fun (_ : Nat) (_ : Symb) => (Except.error 11 : Except Nat (Distance × Nat))) 5
        = .err 11 ⟨[0, 0, 0], DC.MTF.new, fun _ => 3, 5⟩ →
       (∃ sym, (fun (_ : Nat) (_ : Symb) =>
          (Except.error 11 : Except Nat (Distance × Nat)))
            (DC.DecSt.s ⟨[0, 0, 0], DC.MTF.new, fun _ => 3, 5⟩) sym = .error 11) ∧
       (DC.DecSt.output (σ := Nat) ⟨[0, 0, 0], DC.MTF.new, fun _ => 3, 5⟩).length = 3) ∧
    (∀ a b rest, (some [4, 9] : Option (List Symb)) = some (a :: b :: rest) →
       (∀ y, (fun (_ : Nat) (_ : Symb) =>
          (Except.error 11 : Except Nat (Distance × Nat))) 5 y = .error 11) →
       DC.decode 3 (some [4, 9]) [0, 0, 0] DC.MTF.new
          (fun (_ : Nat) (_ : Symb) => (Except.error 11 : Except Nat (Distance × Nat))) 5
         = .err 11 ⟨[0, 0, 0], DC.MTF.new, fun _ => 3, 5⟩) :=
  c9_error_propagation 3 (some [4, 9]) [0, 0, 0] DC.MTF.new _ 5 11
    ⟨[0, 0, 0], DC.MTF.new, fun _ => 3, 5⟩

/-- Claim C2: encoding any byte sequence symbol-by-symbol with MTF::encode
from an alphabetically reset table and decoding the resulting ranks with
MTF::decode from a freshly alphabetically reset table reproduces the
sequence, and after each matched encode/decode pair the two tables hold
identical permutations (the recorded table traces coincide). -/
theorem c2_mtf_roundtrip (x : List Symb) :
    ∃ rs ts, DC.MTF.encodeAll x (DC.MTF.reset_alphabetical DC.MTF.new) = some (rs, ts) ∧
      DC.MTF.decodeAll rs (DC.MTF.reset_alphabetical DC.MTF.new) = some (x, ts) :=
  DC.mtf_roundtrip_gen x _ DC.reset_perm

/-- Claim C6: if the MTF table is a permutation of all byte values then
after any MTF::encode call, and after any MTF::decode call with a rank
in range (ranks are a u8 in the source, hence below 256), it is still a
permutation of all byte values, and slot 0 holds the symbol processed by
that call. -/
theorem c6_mtf_invariant (m : DC.MTF) (sym : Symb) (rank : Rank)
    (hm : m.Perm (List.finRange TotalSymbols)) :
    (∃ r m', DC.MTF.encode m sym = some (r, m') ∧
        m'.Perm (List.finRange TotalSymbols) ∧ m'.head? = some sym) ∧
    (rank < TotalSymbols →
      ∃ s m', DC.MTF.decode m rank = some (s, m') ∧
        m'.Perm (List.finRange TotalSymbols) ∧ m'.head? = some s) := by
  have hmem : sym ∈ m := hm.mem_iff.mpr (List.mem_finRange sym)
  constructor
  · exact ⟨m.indexOf sym, sym :: m.eraseIdx (m.indexOf sym),
      DC.MTF.encode_spec m sym hmem,
      (DC.encode_result_perm m sym hmem).trans hm, rfl⟩
  · intro hr
    have hlen : m.length = TotalSymbols := by
      rw [hm.length_eq, List.length_finRange]
    have hlt : rank < m.length := by rw [hlen]; exact hr
    exact ⟨m.get ⟨rank, hlt⟩, _, DC.MTF.decode_spec m rank hlt,
      (DC.cons_eraseIdx_perm m rank hlt).trans hm, rfl⟩

/-- Claim C7 (counterexample): on the four-byte input aaaa, encode_simple
does NOT return a single-element distance stream: the stream is [0, 0]
(seed plus the sweep distance of the final run), which has two elements. -/
theorem c7_counterexample :
    ¬ ∃ (a : List Symb) (ds : List Distance),
        DC.encode_simple [97, 97, 97, 97] = some (a, ds) ∧ ds.length = 1 := by
  have h : DC.encode_simple [97, 97, 97, 97] = some ([97], [0, 0]) := by decide
  rintro ⟨a, ds, he, hl⟩
  rw [h] at he
  cases he
  cases hl

/-- Claim C7 (amended): encode_simple on aaaa returns the alphabet [a]
and the distance stream [0, 0]: the initial seed distance 0 followed by
exactly one more distance, written by the end-of-buffer sweep for the
final run; the scan itself contributes no distances. -/
theorem c7_encode_simple_aaaa :
    DC.encode_simple [97, 97, 97, 97] = some ([97], [0, 0]) := by decide

/-- Claim C8: decode with a singleton alphabet fills every output
position with that symbol, returns Ok, leaves the MTF table untouched
and never invokes the distance source (the result does not depend on
fdist, and the source state s is returned unchanged). -/
theorem c8_singleton_alphabet {σ : Type u} {ε : Type v} (fuel : Nat) (output : List Symb)
    (mtf : DC.MTF) (fdist : σ → Symb → Except ε (Distance × σ)) (s : σ) (sym : Symb) :
    DC.decode fuel (some [sym]) output mtf fdist s
      = .ok ⟨List.replicate output.length sym, mtf, fun _ => output.length, s⟩ := by
  show DC.DcResult.ok ⟨output.map (fun _ => sym), mtf, fun _ => output.length, s⟩ = _
  rw [List.map_const']

/-- Claim C10: the distance source decode_simple builds over its flat
slice ignores the requested symbol entirely; in state k (k requests
already served) it returns distances[k] and advances the counter to
k+1, and it fails with EndOfFile exactly when the slice is exhausted. -/
theorem c10_simple_source (distances : List Distance) (k : Nat) (sym sym' : Symb) :
    (DC.simpleSource distances k sym = DC.simpleSource distances k sym') ∧
    (∀ h : k < distances.length,
        DC.simpleSource distances k sym = .ok (distances.get ⟨k, h⟩, k + 1)) ∧
    (distances.length ≤ k → DC.simpleSource distances k sym = .error .endOfFile) := by
  refine ⟨rfl, fun h => ?_, fun h => ?_⟩
  · rw [DC.simpleSource]
    rw [dif_neg (by omega)]
  · rw [DC.simpleSource]
    rw [dif_pos (by omega)]

/-- Witness for C10 on the slice [5, 6] in state 1. -/
theorem c10_simple_source_witness :
    (DC.simpleSource [5, 6] 1 2 = DC.simpleSource [5, 6] 1 3) ∧
    (∀ h : 1 < ([5, 6] : List Distance).length,
        DC.simpleSource [5, 6] 1 2 = .ok (([5, 6] : List Distance).get ⟨1, h⟩, 2)) ∧
    (([5, 6] : List Distance).length ≤ 1 → DC.simpleSource [5, 6] 1 2 = .error .endOfFile) :=
  c10_simple_source [5, 6] 1 2 3

/-- Witness for C6 at the identity table, symbol 7, rank 3. -/
theorem c6_mtf_invariant_witness :
    (∃ r m', DC.MTF.encode (List.finRange TotalSymbols) 7 = some (r, m') ∧
        m'.Perm (List.finRange TotalSymbols) ∧ m'.head? = some 7) ∧
    ((3 : Rank) < TotalSymbols →
      ∃ s m', DC.MTF.decode (List.finRange TotalSymbols) 3 = some (s, m') ∧
        m'.Perm (List.finRange TotalSymbols) ∧ m'.head? = some s) :=
  c6_mtf_invariant (List.finRange TotalSymbols) 7 3 (List.Perm.refl _)

/-- Claim C4: decode called with the explicit 256-entry identity
alphabet computes exactly the same result (output, final MTF and next
tables, final distance-source state, and outcome, for every source and
every fuel) as decode called with alphabet = None. -/
theorem c4_full_alphabet_equiv {σ : Type u} {ε : Type v} (fuel : Nat) (output : List Symb)
    (mtf : DC.MTF) (fdist : σ → Symb → Except ε (Distance × σ)) (s : σ) :
    DC.decode fuel (some (List.finRange TotalSymbols)) output mtf fdist s
      = DC.decode fuel none output mtf fdist s := by
  have hlen : (List.finRange TotalSymbols).length = TotalSymbols :=
    List.length_finRange TotalSymbols
  rw [DC.decode_some_ge2 fuel output mtf fdist s _ (by rw [hlen]; decide),
    DC.decode_none_eq]
  have hseed : DC.seedSome fdist (List.finRange TotalSymbols).enum
      (fun _ => output.length) mtf s
      = DC.seedFull fdist (List.finRange TotalSymbols) (fun _ => output.length) mtf s := by
    exact DC.seedSome_enumFrom_eq_seedFull fdist _ 0
      (fun j h => by rw [List.get_finRange]; simp) _ _ _
  rw [hseed, hlen]
  have hzt : ∀ m : DC.MTF, DC.zeroTail m TotalSymbols = m := fun m => rfl
  cases DC.seedFull fdist (List.finRange TotalSymbols) (fun _ => output.length) mtf s with
  | error p => rfl
  | ok v =>
    obtain ⟨n0, m0, s0⟩ := v
    dsimp only
    rw [hzt]

namespace DC

theorem mem_segment (x : List Symb) (p j : Nat) (t : Symb) :
    t ∈ segment x p j ↔ ∃ q, p < q ∧ q < j ∧ x[q]? = some t := by
  rw [segment, List.mem_iff_getElem?]
  constructor
  · rintro ⟨k, hk⟩
    rw [List.getElem?_drop, List.getElem?_take] at hk
    by_cases hlt : p + 1 + k < j
    · rw [if_pos hlt] at hk
      exact ⟨p + 1 + k, by omega, hlt, hk⟩
    · rw [if_neg hlt] at hk; cases hk
  · rintro ⟨q, hpq, hqj, hq⟩
    refine ⟨q - (p + 1), ?_⟩
    rw [List.getElem?_drop, List.getElem?_take]
    have hq' : p + 1 + (q - (p + 1)) = q := by omega
    rw [hq', if_pos hqj, hq]

theorem distinctBetween_le (x : List Symb) (p j : Nat) (hj : j ≤ x.length) :
    distinctBetween x p j ≤ j - p - 1 := by
  have h1 : (segment x p j).dedup.length ≤ (segment x p j).length :=
    (List.dedup_sublist _).length_le
  have h2 : (segment x p j).length = j - (p + 1) := by
    rw [segment, List.length_drop, List.length_take]
    omega
  rw [distinctBetween]
  omega

theorem distinctBetween_pos (x : List Symb) (p j : Nat)
    (hj : j ≤ x.length) (hpj : p + 1 < j) :
    0 < distinctBetween x p j := by
  have hmem : x[p + 1]? = some (x.get ⟨p + 1, by omega⟩) :=
    List.getElem?_eq_getElem (by omega)
  have : (x.get ⟨p + 1, by omega⟩) ∈ segment x p j := by
    rw [mem_segment]
    exact ⟨p + 1, by omega, by omega, hmem⟩
  have : (x.get ⟨p + 1, by omega⟩) ∈ (segment x p j).dedup := List.mem_dedup.mpr this
  have := List.length_pos_of_mem this
  rw [distinctBetween]
  omega

/-- In a table region that lists exactly the seen symbols in strictly
decreasing order of their latest occurrence, the index of a seen symbol
equals the number of distinct symbols occurring after its latest
occurrence and before the scan front. -/
theorem W_indexOf_eq (x : List Symb) (i : Nat) (last : Symb → Nat) (W : List Symb)
    (hi : i ≤ x.length)
    (hlast : ∀ s : Symb, last s = x.length ∨ (last s < i ∧ x[last s]? = some s))
    (hmax : ∀ (s : Symb) (q : Nat), q < i → x[q]? = some s → q ≤ last s ∧ last s < i)
    (hWmem : ∀ s : Symb, s ∈ W ↔ last s ≠ x.length)
    (hWsort : List.Pairwise (fun a b => last b < last a) W)
    (s : Symb) (hs : s ∈ W) :
    W.indexOf s = distinctBetween x (last s) i := by
  have hlt : W.indexOf s < W.length := List.indexOf_lt_length.mpr hs
  have hWnodup : W.Nodup :=
    hWsort.imp (fun hab heq => absurd (heq ▸ hab) (lt_irrefl _))
  have hW : W = W.take (W.indexOf s) ++ s :: W.drop (W.indexOf s + 1) := by
    conv_lhs => rw [← List.take_append_drop (W.indexOf s) W]
    rw [List.drop_eq_getElem_cons hlt]
    have : W[W.indexOf s] = s := List.indexOf_get hlt
    rw [this]
  have hAlen : (W.take (W.indexOf s)).length = W.indexOf s :=
    List.length_take_of_le (Nat.le_of_lt hlt)
  -- decompose the sortedness along the split
  have hsplit := hWsort
  rw [hW, List.pairwise_append] at hsplit
  obtain ⟨hpairA, hpairSB, hcross⟩ := hsplit
  -- membership in the prefix = seen with a strictly later last occurrence
  have hmemA : ∀ t : Symb, t ∈ W.take (W.indexOf s) ↔ (t ∈ W ∧ last s < last t) := by
    intro t
    constructor
    · intro ht
      refine ⟨List.mem_of_mem_take ht, ?_⟩
      exact hcross t ht s (List.mem_cons_self s _)
    · rintro ⟨htW, hlast_t⟩
      have htW' := htW
      rw [hW, List.mem_append, List.mem_cons] at htW'
      rcases htW' with h1 | h1
      · exact h1
      rcases h1 with h1 | h1
      · subst h1; exact absurd hlast_t (lt_irrefl _)
      · have := (List.pairwise_cons.mp hpairSB).1 t h1
        omega
  -- the prefix has exactly the symbols of the dedup of the segment
  have hseen_s : last s < i ∧ x[last s]? = some s := by
    have := (hWmem s).mp hs
    rcases hlast s with h1 | h1
    · exact absurd h1 this
    · exact h1
  have hmemD : ∀ t : Symb, t ∈ (segment x (last s) i).dedup ↔ (t ∈ W ∧ last s < last t) := by
    intro t
    rw [List.mem_dedup, mem_segment]
    constructor
    · rintro ⟨q, hq1, hq2, hq3⟩
      obtain ⟨hqle, hlt_i⟩ := hmax t q hq2 hq3
      have htseen : last t ≠ x.length := by omega
      exact ⟨(hWmem t).mpr htseen, by omega⟩
    · rintro ⟨htW, hlast_t⟩
      have htseen := (hWmem t).mp htW
      rcases hlast t with h1 | h1
      · exact absurd h1 htseen
      · exact ⟨last t, hlast_t, h1.1, h1.2⟩
  -- both are duplicate-free lists with the same members, hence equal length
  have hAnodup : (W.take (W.indexOf s)).Nodup := hWnodup.sublist (List.take_sublist _ _)
  have hperm : (W.take (W.indexOf s)).Perm (segment x (last s) i).dedup := by
    rw [List.perm_ext_iff_of_nodup hAnodup (List.nodup_dedup _)]
    intro t
    rw [hmemA, hmemD]
  rw [distinctBetween, ← hperm.length_eq, hAlen]

end DC

namespace DC

/-- The number of distinct seen symbols can only reach 256 when every
symbol has been seen. -/
theorem seen_lt_total (x : List Symb) (d0 : List Distance) (i : Nat) (st : EncSt)
    (hinv : EncInv x d0 i st) (sym : Symb) (hbase : st.last sym = x.length)
    (_hi : i < x.length) :
    st.unique.length < TotalSymbols := by
  set U := st.unique.length with hUdef
  set W := st.mtf.take U with hWdef
  have hWlen : W.length = U := List.length_take_of_le (by rw [hinv.hmlen]; exact hinv.hU)
  have hWnodup : W.Nodup :=
    hinv.hWsort.imp (fun hab heq => absurd (heq ▸ hab) (lt_irrefl _))
  have hsym_not : sym ∉ W := by
    intro hmem
    exact ((hinv.hWmem sym).mp hmem) hbase
  by_contra hcon
  have hU256 : U = TotalSymbols := Nat.le_antisymm hinv.hU (Nat.le_of_not_lt hcon)
  have hcard : W.toFinset.card = Fintype.card Symb := by
    rw [List.toFinset_card_of_nodup hWnodup, hWlen, hU256, Fintype.card_fin]
  have huniv : W.toFinset = Finset.univ := Finset.eq_univ_of_card _ hcard
  have : sym ∈ W.toFinset := by rw [huniv]; exact Finset.mem_univ sym
  exact hsym_not (List.mem_toFinset.mp this)

/-- Shape of one encode step on a first occurrence. -/
theorem encStep_unseen (x : List Symb) (d0 : List Distance) (i : Nat) (st : EncSt)
    (hinv : EncInv x d0 i st) (sym : Symb) (hx : x[i]? = some sym)
    (hbase : st.last sym = x.length) :
    encStep x.length st i sym
      = some ⟨st.distances.set i x.length, Function.update st.last sym i,
              sym :: st.mtf.take st.unique.length ++ st.mtf.drop (st.unique.length + 1),
              st.unique ++ [(sym, i)]⟩ := by
  have hi : i < x.length := by
    by_contra hle
    rw [List.getElem?_eq_none (Nat.le_of_not_lt hle)] at hx
    cases hx
  set U := st.unique.length with hUdef
  set W := st.mtf.take U with hWdef
  have hUlt : U < TotalSymbols := seen_lt_total x d0 i st hinv sym hbase hi
  have hUmtf : U < st.mtf.length := by rw [hinv.hmlen]; exact hUlt
  have hWlen : W.length = U := List.length_take_of_le (Nat.le_of_lt hUmtf)
  have hsym_not : sym ∉ W := fun hmem => ((hinv.hWmem sym).mp hmem) hbase
  have hset : st.mtf.set U sym = W ++ sym :: st.mtf.drop (U + 1) := by
    rw [List.set_eq_take_append_cons_drop, if_pos hUmtf]
  have hmem1 : sym ∈ st.mtf.set U sym := by
    rw [hset]
    exact List.mem_append_right _ (List.mem_cons_self _ _)
  have hidx : (st.mtf.set U sym).indexOf sym = U := by
    rw [hset, List.indexOf_append_of_not_mem hsym_not, List.indexOf_cons_self, hWlen]
    exact Nat.add_zero U
  have henc : MTF.encode (st.mtf.set U sym) sym
      = some (U, sym :: W ++ st.mtf.drop (U + 1)) := by
    rw [MTF.encode_spec _ sym hmem1, hidx, hset,
      List.eraseIdx_append_of_length_le (by rw [hWlen]),
      hWlen, Nat.sub_self, List.eraseIdx_zero, List.tail_cons, ← List.cons_append]
  rw [encStep]
  rw [if_pos hbase]
  dsimp only
  rw [← hUdef, henc]

/-- Shape of one encode step on a repeat occurrence: the MTF rank is the
number of distinct symbols since the previous occurrence, the assert
holds, and the gap distance is written at the previous occurrence
exactly when the rank is positive. -/
theorem encStep_seen (x : List Symb) (d0 : List Distance) (i : Nat) (st : EncSt)
    (hinv : EncInv x d0 i st) (sym : Symb) (hx : x[i]? = some sym)
    (hbase : st.last sym ≠ x.length) :
    MTF.encode st.mtf sym
        = some (distinctBetween x (st.last sym) i,
            sym :: (st.mtf.take st.unique.length).erase sym ++ st.mtf.drop st.unique.length) ∧
    st.last sym + distinctBetween x (st.last sym) i + 1 ≤ i ∧
    encStep x.length st i sym
      = some ⟨(if 0 < distinctBetween x (st.last sym) i
                then (st.distances.set i x.length).set (st.last sym)
                       (i - st.last sym - distinctBetween x (st.last sym) i - 1)
                else st.distances.set i x.length),
              Function.update st.last sym i,
              sym :: (st.mtf.take st.unique.length).erase sym ++ st.mtf.drop st.unique.length,
              st.unique⟩ := by
  have hi : i < x.length := by
    by_contra hle
    rw [List.getElem?_eq_none (Nat.le_of_not_lt hle)] at hx
    cases hx
  set U := st.unique.length with hUdef
  set W := st.mtf.take U with hWdef
  have hWapp : st.mtf = W ++ st.mtf.drop U := by rw [hWdef, List.take_append_drop]
  have hsymW : sym ∈ W := (hinv.hWmem sym).mpr hbase
  have hsym_mtf : sym ∈ st.mtf := List.mem_of_mem_take hsymW
  have hidx : st.mtf.indexOf sym = W.indexOf sym := by
    conv_lhs => rw [hWapp]
    exact List.indexOf_append_of_mem hsymW
  have hrank : W.indexOf sym = distinctBetween x (st.last sym) i :=
    W_indexOf_eq x i st.last W hinv.hi hinv.hlast hinv.hmax hinv.hWmem hinv.hWsort sym hsymW
  have hWidx_lt : W.indexOf sym < W.length := List.indexOf_lt_length.mpr hsymW
  have herase : st.mtf.eraseIdx (st.mtf.indexOf sym) = W.erase sym ++ st.mtf.drop U := by
    rw [hidx]
    conv_lhs => rw [hWapp]
    rw [List.eraseIdx_append_of_lt_length hWidx_lt, List.eraseIdx_indexOf_eq_erase]
  have henc : MTF.encode st.mtf sym
      = some (distinctBetween x (st.last sym) i, sym :: W.erase sym ++ st.mtf.drop U) := by
    rw [MTF.encode_spec _ sym hsym_mtf, herase, hidx, hrank, ← List.cons_append]
  have hbase_lt : st.last sym < i := by
    rcases hinv.hlast sym with h1 | h1
    · exact absurd h1 hbase
    · exact h1.1
  have hassert : st.last sym + distinctBetween x (st.last sym) i + 1 ≤ i := by
    have := distinctBetween_le x (st.last sym) i hinv.hi
    -- the rank counts distinct symbols among positions strictly between,
    -- of which there are at most i - last sym - 1
    omega
  refine ⟨henc, hassert, ?_⟩
  rw [encStep, if_neg hbase]
  rw [henc]
  dsimp only
  by_cases hr : 0 < distinctBetween x (st.last sym) i
  · rw [if_pos hr, if_pos (by omega), if_pos hr]
  · rw [if_neg hr, if_neg hr]

end DC

namespace DC

theorem getElem?_some_lt {x : List Symb} {p : Nat} {s : Symb} (h : x[p]? = some s) :
    p < x.length := by
  obtain ⟨hlt, -⟩ := List.getElem?_eq_some.mp h
  exact hlt

/-- Invariant preservation for a first-occurrence step. -/
theorem encStep_inv_unseen (x : List Symb) (d0 : List Distance) (i : Nat) (st : EncSt)
    (hinv : EncInv x d0 i st) (sym : Symb) (hx : x[i]? = some sym)
    (hbase : st.last sym = x.length) :
    EncInv x d0 (i + 1)
      ⟨st.distances.set i x.length, Function.update st.last sym i,
       sym :: st.mtf.take st.unique.length ++ st.mtf.drop (st.unique.length + 1),
       st.unique ++ [(sym, i)]⟩ := by
  have hi : i < x.length := getElem?_some_lt hx
  set U := st.unique.length with hUdef
  set W := st.mtf.take U with hWdef
  have hUlt : U < TotalSymbols := seen_lt_total x d0 i st hinv sym hbase hi
  have hUmtf : U < st.mtf.length := by rw [hinv.hmlen]; exact hUlt
  have hWlen : W.length = U := List.length_take_of_le (Nat.le_of_lt hUmtf)
  have hsym_not : sym ∉ W := fun hmem => ((hinv.hWmem sym).mp hmem) hbase
  have hnooccur : ∀ q, q < i → x[q]? ≠ some sym := by
    intro q hq hq'
    obtain ⟨h1, h2⟩ := hinv.hmax sym q hq hq'
    rw [hbase] at h2
    omega
  have htake : ((sym :: W ++ st.mtf.drop (U + 1)).take
      ((st.unique ++ [(sym, i)]).length)) = sym :: W := by
    rw [List.length_append]
    have hlen1 : (sym :: W).length = U + 1 := by
      rw [List.length_cons, hWlen]
    rw [show st.unique.length + [(sym, i)].length = U + 1 by simp [← hUdef]]
    exact List.take_left' hlen1
  constructor <;> (try dsimp only)
  case hi => omega
  case hdlen => rw [List.length_set]; exact hinv.hdlen
  case hlast =>
    intro s
    by_cases hs : s = sym
    · subst hs
      right
      rw [Function.update_same]
      exact ⟨by omega, hx⟩
    · rw [Function.update_noteq hs]
      rcases hinv.hlast s with h1 | h1
      · exact Or.inl h1
      · exact Or.inr ⟨by omega, h1.2⟩
  case hmax =>
    intro s q hq hq'
    by_cases hqi : q = i
    · subst hqi
      have hssym : s = sym := by
        rw [hx] at hq'
        exact (Option.some.inj hq').symm
      subst hssym
      rw [Function.update_same]
      omega
    · have hqlt : q < i := by omega
      by_cases hs : s = sym
      · subst hs
        exact absurd hq' (hnooccur q hqlt)
      · rw [Function.update_noteq hs]
        obtain ⟨h1, h2⟩ := hinv.hmax s q hqlt hq'
        exact ⟨h1, by omega⟩
  case hmlen =>
    simp only [List.length_cons, List.length_append, List.length_drop, hWlen, hinv.hmlen]
    omega
  case hU =>
    rw [List.length_append]
    simpa using hUlt
  case hWmem =>
    intro s
    rw [htake]
    by_cases hs : s = sym
    · subst hs
      rw [Function.update_same]
      simp only [List.mem_cons, true_or, true_iff]
      exact Nat.ne_of_lt hi
    · rw [Function.update_noteq hs]
      rw [List.mem_cons]
      constructor
      · rintro (h1 | h1)
        · exact absurd h1 hs
        · exact (hinv.hWmem s).mp h1
      · intro h1
        exact Or.inr ((hinv.hWmem s).mpr h1)
  case hWsort =>
    rw [htake]
    rw [List.pairwise_cons]
    constructor
    · intro t ht
      have htsym : t ≠ sym := fun h => hsym_not (h ▸ ht)
      rw [Function.update_same, Function.update_noteq htsym]
      have hseen := (hinv.hWmem t).mp ht
      rcases hinv.hlast t with h1 | h1
      · exact absurd h1 hseen
      · exact h1.1
    · refine hinv.hWsort.imp_of_mem ?_
      intro a b ha hb hab
      have hasym : a ≠ sym := fun h => hsym_not (h ▸ ha)
      have hbsym : b ≠ sym := fun h => hsym_not (h ▸ hb)
      rw [Function.update_noteq hasym, Function.update_noteq hbsym]
      exact hab
  case huniq_first =>
    intro p hp
    rw [List.mem_append] at hp
    rcases hp with hp | hp
    · exact hinv.huniq_first p hp
    · rw [List.mem_singleton] at hp
      subst hp
      exact ⟨hx, fun q hq => hnooccur q hq⟩
  case huniq_inc =>
    rw [List.pairwise_append]
    refine ⟨hinv.huniq_inc, List.pairwise_singleton _ _, ?_⟩
    intro a ha b hb
    rw [List.mem_singleton] at hb
    subst hb
    exact hinv.huniq_lt a ha
  case huniq_lt =>
    intro p hp
    rw [List.mem_append] at hp
    rcases hp with hp | hp
    · exact Nat.lt_succ_of_lt (hinv.huniq_lt p hp)
    · rw [List.mem_singleton] at hp; subst hp; exact Nat.lt_succ_self i
  case huniq_mem =>
    intro s
    by_cases hs : s = sym
    · subst hs
      rw [Function.update_same]
      constructor
      · intro _; exact Nat.ne_of_lt hi
      · intro _
        exact ⟨i, List.mem_append_right _ (List.mem_singleton.mpr rfl)⟩
    · rw [Function.update_noteq hs]
      constructor
      · rintro ⟨f, hf⟩
        rw [List.mem_append] at hf
        rcases hf with hf | hf
        · exact (hinv.huniq_mem s).mp ⟨f, hf⟩
        · rw [List.mem_singleton] at hf
          cases hf
          exact absurd rfl hs
      · intro h1
        obtain ⟨f, hf⟩ := (hinv.huniq_mem s).mpr h1
        exact ⟨f, List.mem_append_left _ hf⟩
  case hd0 =>
    intro p hp
    rw [List.getElem?_set_ne (by omega)]
    exact hinv.hd0 p (by omega)
  case hdist =>
    intro p s hp hxp
    by_cases hpi : p = i
    · have hssym : s = sym := by
        rw [hpi, hx] at hxp
        exact (Option.some.inj hxp).symm
      subst hssym
      subst hpi
      have hval : (st.distances.set p x.length)[p]? = some x.length :=
        List.getElem?_set_self (by rw [hinv.hdlen]; exact hi)
      refine ⟨fun _ => hval, ?_⟩
      intro j hj1 hj2 _ _
      omega
    · have hplt : p < i := by omega
      have hssym : s ≠ sym := by
        intro h
        subst h
        exact hnooccur p hplt hxp
      have hval : (st.distances.set i x.length)[p]? = st.distances[p]? :=
        List.getElem?_set_ne (by omega)
      obtain ⟨hc1, hc2⟩ := hinv.hdist p s hplt hxp
      constructor
      · intro hnone
        rw [hval]
        exact hc1 (fun j hj1 hj2 => hnone j hj1 (by omega))
      · intro j hj1 hj2 hjx hjmin
        have hji : j ≠ i := by
          intro h
          subst h
          rw [hx] at hjx
          exact hssym (Option.some.inj hjx).symm
        rw [hval]
        exact hc2 j hj1 (by omega) hjx hjmin

end DC

namespace DC

/-- Invariant preservation for a repeat-occurrence step. -/
theorem encStep_inv_seen (x : List Symb) (d0 : List Distance) (i : Nat) (st : EncSt)
    (hinv : EncInv x d0 i st) (sym : Symb) (hx : x[i]? = some sym)
    (hbase : st.last sym ≠ x.length) :
    EncInv x d0 (i + 1)
      ⟨(if 0 < distinctBetween x (st.last sym) i
          then (st.distances.set i x.length).set (st.last sym)
                 (i - st.last sym - distinctBetween x (st.last sym) i - 1)
          else st.distances.set i x.length),
       Function.update st.last sym i,
       sym :: (st.mtf.take st.unique.length).erase sym ++ st.mtf.drop st.unique.length,
       st.unique⟩ := by
  have hi : i < x.length := getElem?_some_lt hx
  set U := st.unique.length with hUdef
  set W := st.mtf.take U with hWdef
  set base := st.last sym with hbdef
  set r := distinctBetween x base i with hrdef
  have hUmtf : U ≤ st.mtf.length := by rw [hinv.hmlen]; exact hinv.hU
  have hWlen : W.length = U := List.length_take_of_le hUmtf
  have hWnodup : W.Nodup :=
    hinv.hWsort.imp (fun hab heq => absurd (heq ▸ hab) (lt_irrefl _))
  have hsymW : sym ∈ W := (hinv.hWmem sym).mpr hbase
  have hUpos : 1 ≤ U := by
    by_contra hcon
    have : U = 0 := by omega
    rw [this] at hWlen
    rw [List.length_eq_zero] at hWlen
    rw [hWlen] at hsymW
    cases hsymW
  have herlen : (W.erase sym).length = U - 1 := by
    rw [List.length_erase_of_mem hsymW, hWlen]
  have hbase_lt : base < i := by
    rcases hinv.hlast sym with h1 | h1
    · exact absurd h1 hbase
    · exact h1.1
  have hxbase : x[base]? = some sym := by
    rcases hinv.hlast sym with h1 | h1
    · exact absurd h1 hbase
    · exact h1.2
  have hmaxbase : ∀ q, base < q → q < i → x[q]? ≠ some sym := by
    intro q hq1 hq2 hq'
    obtain ⟨h1, -⟩ := hinv.hmax sym q hq2 hq'
    omega
  have hr_bound : base + r + 1 ≤ i := by
    have := distinctBetween_le x base i hinv.hi
    omega
  have hr_iff : (0 < r) ↔ (base + 1 < i) := by
    constructor
    · intro h0
      by_contra hcon
      have hbi : i = base + 1 := by omega
      rw [hrdef, hbi] at h0
      have hseg : segment x base (base + 1) = [] := by
        rw [segment]
        exact List.drop_eq_nil_of_le (by rw [List.length_take]; omega)
      rw [distinctBetween, hseg] at h0
      cases h0
    · intro h1
      exact distinctBetween_pos x base i hinv.hi h1
  -- shape of the new window
  have htake : ((sym :: W.erase sym ++ st.mtf.drop U).take st.unique.length)
      = sym :: W.erase sym := by
    obtain ⟨U0, hU0⟩ : ∃ U0, U = U0 + 1 := ⟨U - 1, by omega⟩
    rw [← hUdef, hU0, List.cons_append, List.take_succ_cons]
    have hlen0 : (W.erase sym).length = U0 := by omega
    rw [List.take_left' hlen0]
  have hdlen' : ∀ q : Nat, q < x.length →
      ((if 0 < r
          then (st.distances.set i x.length).set base (i - base - r - 1)
          else st.distances.set i x.length) : List Distance).length = x.length := by
    intro q _
    by_cases h0 : 0 < r
    · rw [if_pos h0, List.length_set, List.length_set]; exact hinv.hdlen
    · rw [if_neg h0, List.length_set]; exact hinv.hdlen
  -- reading untouched slots of the new buffer
  have hread_other : ∀ q : Nat, q ≠ i → q ≠ base →
      ((if 0 < r
          then (st.distances.set i x.length).set base (i - base - r - 1)
          else st.distances.set i x.length) : List Distance)[q]? = st.distances[q]? := by
    intro q hq1 hq2
    by_cases h0 : 0 < r
    · rw [if_pos h0, List.getElem?_set_ne (fun h => hq2 h.symm),
        List.getElem?_set_ne (fun h => hq1 h.symm)]
    · rw [if_neg h0, List.getElem?_set_ne (fun h => hq1 h.symm)]
  constructor <;> (try dsimp only)
  case hi => omega
  case hdlen =>
    by_cases h0 : 0 < r
    · rw [if_pos h0, List.length_set, List.length_set]; exact hinv.hdlen
    · rw [if_neg h0, List.length_set]; exact hinv.hdlen
  case hlast =>
    intro s
    by_cases hs : s = sym
    · subst hs
      right
      rw [Function.update_same]
      exact ⟨by omega, hx⟩
    · rw [Function.update_noteq hs]
      rcases hinv.hlast s with h1 | h1
      · exact Or.inl h1
      · exact Or.inr ⟨by omega, h1.2⟩
  case hmax =>
    intro s q hq hq'
    by_cases hqi : q = i
    · have hssym : s = sym := by
        rw [hqi, hx] at hq'
        exact (Option.some.inj hq').symm
      subst hssym
      rw [Function.update_same]
      omega
    · have hqlt : q < i := by omega
      by_cases hs : s = sym
      · subst hs
        rw [Function.update_same]
        obtain ⟨h1, -⟩ := hinv.hmax s q hqlt hq'
        constructor
        · omega
        · omega
      · rw [Function.update_noteq hs]
        obtain ⟨h1, h2⟩ := hinv.hmax s q hqlt hq'
        exact ⟨h1, by omega⟩
  case hmlen =>
    simp only [List.cons_append, List.length_cons, List.length_append, List.length_drop,
      herlen, hinv.hmlen]
    have := hinv.hU
    omega
  case hU => exact hinv.hU
  case hWmem =>
    intro s
    rw [htake]
    by_cases hs : s = sym
    · subst hs
      rw [Function.update_same]
      simp only [List.mem_cons, true_or, true_iff]
      exact Nat.ne_of_lt hi
    · rw [Function.update_noteq hs]
      rw [List.mem_cons]
      constructor
      · rintro (h1 | h1)
        · exact absurd h1 hs
        · exact (hinv.hWmem s).mp ((hWnodup.mem_erase_iff.mp h1).2)
      · intro h1
        exact Or.inr (hWnodup.mem_erase_iff.mpr ⟨hs, (hinv.hWmem s).mpr h1⟩)
  case hWsort =>
    rw [htake]
    rw [List.pairwise_cons]
    constructor
    · intro t ht
      obtain ⟨htsym, htW⟩ := hWnodup.mem_erase_iff.mp ht
      rw [Function.update_same, Function.update_noteq htsym]
      have hseen := (hinv.hWmem t).mp htW
      rcases hinv.hlast t with h1 | h1
      · exact absurd h1 hseen
      · exact h1.1
    · refine (hinv.hWsort.sublist (List.erase_sublist sym W)).imp_of_mem ?_
      intro a b ha hb hab
      have ha' := hWnodup.mem_erase_iff.mp ha
      have hb' := hWnodup.mem_erase_iff.mp hb
      rw [Function.update_noteq ha'.1, Function.update_noteq hb'.1]
      exact hab
  case huniq_first => exact hinv.huniq_first
  case huniq_inc => exact hinv.huniq_inc
  case huniq_lt =>
    intro p hp
    exact Nat.lt_succ_of_lt (hinv.huniq_lt p hp)
  case huniq_mem =>
    intro s
    by_cases hs : s = sym
    · subst hs
      rw [Function.update_same]
      constructor
      · intro _; exact Nat.ne_of_lt hi
      · intro _; exact (hinv.huniq_mem s).mpr hbase
    · rw [Function.update_noteq hs]
      exact hinv.huniq_mem s
  case hd0 =>
    intro p hp
    rw [hread_other p (by omega) (by omega)]
    exact hinv.hd0 p (by omega)
  case hdist =>
    intro p s hp hxp
    by_cases hpi : p = i
    · have hssym : s = sym := by
        rw [hpi, hx] at hxp
        exact (Option.some.inj hxp).symm
      subst hssym
      subst hpi
      have hval : (if 0 < r
            then (st.distances.set p x.length).set base (p - base - r - 1)
            else st.distances.set p x.length : List Distance)[p]? = some x.length := by
        by_cases h0 : 0 < r
        · rw [if_pos h0, List.getElem?_set_ne (by omega),
            List.getElem?_set_self (by rw [hinv.hdlen]; exact hi)]
        · rw [if_neg h0, List.getElem?_set_self (by rw [hinv.hdlen]; exact hi)]
      refine ⟨fun _ => hval, ?_⟩
      intro j hj1 hj2 _ _
      omega
    · have hplt : p < i := by omega
      by_cases hps : s = sym
      · subst hps
        by_cases hpb : p = base
        · constructor
          · intro hnone
            exact absurd hx (hnone i (by omega) (by omega))
          · intro j hj1 hj2 hjx hjmin
            have hji : j = i := by
              by_contra hcon
              have hjlt : j < i := by omega
              obtain ⟨h1, -⟩ := hinv.hmax s j hjlt hjx
              omega
            rw [hji]
            by_cases h0 : 0 < r
            · have hne : ¬ (i = p + 1) := by
                have := hr_iff.mp h0
                omega
              rw [if_pos h0, if_neg hne, hpb, List.getElem?_set_self
                (by rw [List.length_set, hinv.hdlen]; omega)]
            · have heq : i = p + 1 := by
                have := hr_iff.mpr
                omega
              rw [if_neg h0, if_pos heq, List.getElem?_set_ne (by omega)]
              obtain ⟨hc1, -⟩ := hinv.hdist p s hplt hxp
              refine hc1 (fun j' hj1' hj2' => ?_)
              rw [hpb] at hj1'
              exact hmaxbase j' hj1' hj2'
        · -- p is an earlier occurrence of the symbol, already closed by base
          have hpbase : p < base := by
            obtain ⟨h1, -⟩ := hinv.hmax s p hplt hxp
            omega
          have hread : (if 0 < r
                then (st.distances.set i x.length).set base (i - base - r - 1)
                else st.distances.set i x.length : List Distance)[p]? = st.distances[p]? :=
            hread_other p (by omega) (by omega)
          constructor
          · intro hnone
            exact absurd hxbase (hnone base hpbase (by omega))
          · intro j hj1 hj2 hjx hjmin
            have hji : j ≠ i :=
              fun h => (hjmin base hpbase (by rw [h]; exact hbase_lt)) hxbase
            obtain ⟨-, hc2⟩ := hinv.hdist p s hplt hxp
            rw [hread]
            exact hc2 j hj1 (by omega) hjx hjmin
      · -- a different symbol: its slot and gap structure are untouched
        have hpbase : p ≠ base := by
          intro h
          rw [h, hxbase] at hxp
          exact hps (Option.some.inj hxp).symm
        have hread : (if 0 < r
              then (st.distances.set i x.length).set base (i - base - r - 1)
              else st.distances.set i x.length : List Distance)[p]? = st.distances[p]? :=
          hread_other p (by omega) hpbase
        obtain ⟨hc1, hc2⟩ := hinv.hdist p s hplt hxp
        constructor
        · intro hnone
          rw [hread]
          exact hc1 (fun j hj1 hj2 => hnone j hj1 (by omega))
        · intro j hj1 hj2 hjx hjmin
          have hji : j ≠ i := by
            intro h
            rw [h, hx] at hjx
            exact hps (Option.some.inj hjx).symm
          rw [hread]
          exact hc2 j hj1 (by omega) hjx hjmin

end DC

namespace DC

/-- Every step from an invariant state succeeds and preserves the
invariant. -/
theorem encStep_inv (x : List Symb) (d0 : List Distance) (i : Nat) (st : EncSt)
    (hinv : EncInv x d0 i st) (sym : Symb) (hx : x[i]? = some sym) :
    ∃ st', encStep x.length st i sym = some st' ∧ EncInv x d0 (i + 1) st' := by
  by_cases hbase : st.last sym = x.length
  · exact ⟨_, encStep_unseen x d0 i st hinv sym hx hbase,
      encStep_inv_unseen x d0 i st hinv sym hx hbase⟩
  · obtain ⟨-, -, hstep⟩ := encStep_seen x d0 i st hinv sym hx hbase
    exact ⟨_, hstep, encStep_inv_seen x d0 i st hinv sym hx hbase⟩

/-- The invariant holds before the scan starts. -/
theorem encInv_init (x : List Symb) (d0 : List Distance) (mtf0 : MTF)
    (hd : d0.length = x.length) (hm : mtf0.length = TotalSymbols) :
    EncInv x d0 0 ⟨d0, fun _ => x.length, mtf0, []⟩ := by
  constructor <;> (try dsimp only)
  case hi => exact Nat.zero_le _
  case hdlen => exact hd
  case hlast => intro s; exact Or.inl rfl
  case hmax => intro s q hq _; exact absurd hq (Nat.not_lt_zero q)
  case hmlen => exact hm
  case hU => exact Nat.zero_le _
  case hWmem =>
    intro s
    simp only [List.length_nil, List.take_zero, List.not_mem_nil, false_iff,
      ne_eq, not_not]
  case hWsort => simp only [List.length_nil, List.take_zero, List.Pairwise.nil]
  case huniq_first => intro p hp; cases hp
  case huniq_inc => exact List.Pairwise.nil
  case huniq_lt => intro p hp; cases hp
  case huniq_mem =>
    intro s
    simp only [List.not_mem_nil, exists_const, false_iff, ne_eq, not_not]
  case hd0 => intro p _; rfl
  case hdist => intro p s hp; exact absurd hp (Nat.not_lt_zero p)

/-- Scanning any slice of the input from an invariant state succeeds and
ends in an invariant state. -/
theorem encScan_inv_gen (x : List Symb) (d0 : List Distance) :
    ∀ (seg : List Symb) (i : Nat) (st : EncSt),
      EncInv x d0 i st → (∀ k, k < seg.length → seg[k]? = x[i + k]?) →
      ∃ st', encScan x.length seg i st = some st' ∧ EncInv x d0 (i + seg.length) st' := by
  intro seg
  induction seg with
  | nil =>
    intro i st hinv _
    exact ⟨st, rfl, by simpa using hinv⟩
  | cons sym rest ih =>
    intro i st hinv hseg
    have hx : x[i]? = some sym := by
      have := hseg 0 (by simp)
      simp only [List.getElem?_cons_zero, Nat.add_zero] at this
      exact this.symm
    obtain ⟨st1, hstep, hinv1⟩ := encStep_inv x d0 i st hinv sym hx
    have hseg1 : ∀ k, k < rest.length → rest[k]? = x[i + 1 + k]? := by
      intro k hk
      have := hseg (k + 1) (by simp; omega)
      simp only [List.getElem?_cons_succ] at this
      rw [this]
      congr 1
      omega
    obtain ⟨st', hscan, hinv'⟩ := ih (i + 1) st1 hinv1 hseg1
    refine ⟨st', ?_, ?_⟩
    · rw [encScan, hstep]
      exact hscan
    · have : i + (rest.length + 1) = i + 1 + rest.length := by omega
      rw [List.length_cons, this]
      exact hinv'

/-- The scan state after processing the first i input symbols. -/
theorem encScan_take_inv (x : List Symb) (d0 : List Distance) (i : Nat) (st : EncSt)
    (hd : d0.length = x.length) (hi : i ≤ x.length)
    (hscan : encScan x.length (x.take i) 0 ⟨d0, fun _ => x.length, MTF.new, []⟩ = some st) :
    EncInv x d0 i st := by
  have hinit : EncInv x d0 0 ⟨d0, fun _ => x.length, MTF.new, []⟩ :=
    encInv_init x d0 MTF.new hd (List.length_replicate _ _)
  have hseg : ∀ k, k < (x.take i).length → (x.take i)[k]? = x[0 + k]? := by
    intro k hk
    rw [List.length_take] at hk
    rw [List.getElem?_take, if_pos (by omega), Nat.zero_add]
  obtain ⟨st', hscan', hinv'⟩ := encScan_inv_gen x d0 (x.take i) 0 _ hinit hseg
  rw [hscan] at hscan'
  cases hscan'
  have hlen : (x.take i).length = i := List.length_take_of_le hi
  rw [Nat.zero_add, hlen] at hinv'
  exact hinv'

end DC

/-- Claim C3: during the DC encode scan, at every non-first occurrence of
a symbol (position i, previous occurrence base = last[sym]), the MTF
encode call succeeds with some rank; i is at least base + rank + 1 (the
assert never fires); if the rank is positive the step writes
i - base - rank - 1 into distances[base], and if the rank is zero the
step leaves distances[base] alone, writing only its own sentinel at
position i. -/
theorem c3_encode_gap_write (x : List Symb) (d0 : List Distance) (i : Nat)
    (st : DC.EncSt) (sym : Symb)
    (hd : d0.length = x.length)
    (hscan : DC.encScan x.length (x.take i) 0
        ⟨d0, fun _ => x.length, DC.MTF.new, []⟩ = some st)
    (hx : x[i]? = some sym)
    (hbase : st.last sym ≠ x.length) :
    ∃ rank mtf2, DC.MTF.encode st.mtf sym = some (rank, mtf2) ∧
      st.last sym + rank + 1 ≤ i ∧
      DC.encStep x.length st i sym = some
        ⟨(if 0 < rank
            then (st.distances.set i x.length).set (st.last sym)
                   (i - st.last sym - rank - 1)
            else st.distances.set i x.length),
         Function.update st.last sym i, mtf2, st.unique⟩ := by
  have hi : i < x.length := DC.getElem?_some_lt hx
  have hinv : DC.EncInv x d0 i st :=
    DC.encScan_take_inv x d0 i st hd (Nat.le_of_lt hi) hscan
  obtain ⟨henc, hassert, hstep⟩ := DC.encStep_seen x d0 i st hinv sym hx hbase
  exact ⟨_, _, henc, hassert, hstep⟩

/-- Witness for C3 on the input 010 at position 2 (repeat of symbol 0 at
rank 1). -/
theorem c3_encode_gap_write_witness :
    ∃ rank mtf2, DC.MTF.encode DC.encWitnessState.mtf 0 = some (rank, mtf2) ∧
      DC.encWitnessState.last 0 + rank + 1 ≤ 2 ∧
      DC.encStep 3 DC.encWitnessState 2 0 = some
        ⟨(if 0 < rank
            then (DC.encWitnessState.distances.set 2 3).set (DC.encWitnessState.last 0)
                   (2 - DC.encWitnessState.last 0 - rank - 1)
            else DC.encWitnessState.distances.set 2 3),
         Function.update DC.encWitnessState.last 0 2, mtf2, DC.encWitnessState.unique⟩ :=
  c3_encode_gap_write [0, 1, 0] [0, 0, 0] 2 DC.encWitnessState 0 rfl (by rfl) rfl (by decide)

namespace DC

/-- Full characterisation of the closing sweep: it succeeds whenever
every entry satisfies the assert, writes the end-of-buffer distance of
every listed symbol at its base position, and leaves every other slot
unchanged. -/
theorem encSweep_spec (N : Nat) (last : Symb → Nat) :
    ∀ (L : List (Nat × Symb)) (D : List Distance),
      (∀ p ∈ L, last p.2 + p.1 + 1 ≤ N) →
      List.Pairwise (fun a b => last a.2 ≠ last b.2) L →
      (∀ p ∈ L, last p.2 < D.length) →
      ∃ D', encSweep N last L D = some D' ∧ D'.length = D.length ∧
        (∀ q : Nat, (∀ p ∈ L, last p.2 ≠ q) → D'[q]? = D[q]?) ∧
        (∀ p ∈ L, D'[last p.2]? = some (N - last p.2 - p.1 - 1)) := by
  intro L
  induction L with
  | nil =>
    intro D _ _ _
    exact ⟨D, rfl, rfl, fun q _ => rfl, fun p hp => absurd hp (List.not_mem_nil p)⟩
  | cons pr rest ih =>
    intro D hguard hpw hlen
    obtain ⟨rank, sym⟩ := pr
    have hg := hguard (rank, sym) (List.mem_cons_self _ _)
    obtain ⟨hhead, hpwrest⟩ := List.pairwise_cons.mp hpw
    obtain ⟨D', hrun, hlen', huntouched, hvals⟩ :=
      ih (D.set (last sym) (N - last sym - rank - 1))
        (fun p hp => hguard p (List.mem_cons_of_mem _ hp))
        hpwrest
        (fun p hp => by
          rw [List.length_set]
          exact hlen p (List.mem_cons_of_mem _ hp))
    refine ⟨D', ?_, ?_, ?_, ?_⟩
    · rw [encSweep, if_pos hg]
      exact hrun
    · rw [hlen', List.length_set]
    · intro q hq
      rw [huntouched q (fun p hp => hq p (List.mem_cons_of_mem _ hp)),
        List.getElem?_set_ne (hq (rank, sym) (List.mem_cons_self _ _))]
    · intro p hp
      rcases List.mem_cons.mp hp with hp1 | hp1
      · cases hp1
        rw [huntouched (last sym) (fun p' hp' => (hhead p' hp').symm),
          List.getElem?_set_self (hlen (rank, sym) (List.mem_cons_self _ _))]
      · exact hvals p hp1

end DC

namespace DC

/-- Complete characterisation of the buffer produced by the scan plus
sweep of dc::encode: every position holds the encoded gap to the next
occurrence of its symbol (sentinel only for adjacent repeats), or the
end-of-buffer distance for last occurrences. -/
theorem encode_full_spec (x : List Symb) (d0 : List Distance) (mtf0 : MTF)
    (hd : d0.length = x.length) (hm : mtf0.length = TotalSymbols) :
    ∃ st D', encScan x.length x 0 ⟨d0, fun _ => x.length, mtf0, []⟩ = some st ∧
      EncInv x d0 x.length st ∧
      encSweep x.length st.last ((st.mtf.take st.unique.length).enum) st.distances
        = some D' ∧
      D'.length = x.length ∧
      (∀ (p : Nat) (s : Symb), x[p]? = some s →
        (∀ j, p < j → j < x.length → x[j]? ≠ some s) →
        D'[p]? = some (x.length - p - distinctBetween x p x.length - 1)) ∧
      (∀ (p j : Nat) (s : Symb), x[p]? = some s → p < j → j < x.length →
        x[j]? = some s → (∀ q, p < q → q < j → x[q]? ≠ some s) →
        D'[p]? = some (if j = p + 1 then x.length
          else j - p - distinctBetween x p j - 1)) ∧
      (∀ (p : Nat) (s : Symb), x[p]? = some s → D'[p]? = some x.length →
        x[p + 1]? = some s ∧ p + 1 < x.length) := by
  have hinit : EncInv x d0 0 ⟨d0, fun _ => x.length, mtf0, []⟩ :=
    encInv_init x d0 mtf0 hd hm
  obtain ⟨st, hscan, hinv⟩ := encScan_inv_gen x d0 x 0 _ hinit
    (fun k hk => by rw [Nat.zero_add])
  rw [Nat.zero_add] at hinv
  set N := x.length with hNdef
  set U := st.unique.length with hUdef
  set W := st.mtf.take U with hWdef
  have hWlen : W.length = U :=
    List.length_take_of_le (by rw [hinv.hmlen]; exact hinv.hU)
  have hWnodup : W.Nodup :=
    hinv.hWsort.imp (fun hab heq => absurd (heq ▸ hab) (lt_irrefl _))
  -- basic facts about enum entries
  have henum : ∀ pr ∈ W.enum, W[pr.1]? = some pr.2 := by
    intro pr hpr
    obtain ⟨k, t⟩ := pr
    exact List.mk_mem_enum_iff_getElem?.mp hpr
  have henum_idx : ∀ pr ∈ W.enum, W.indexOf pr.2 = pr.1 := by
    intro pr hpr
    have hget := henum pr hpr
    obtain ⟨hk, hgetk⟩ := List.getElem?_eq_some.mp hget
    have hmem : pr.2 ∈ W := List.getElem?_mem hget
    have hio : W.indexOf pr.2 < W.length := List.indexOf_lt_length.mpr hmem
    have h1 : W.get ⟨W.indexOf pr.2, hio⟩ = W.get ⟨pr.1, hk⟩ := by
      rw [List.indexOf_get]
      exact hgetk.symm
    have := (hWnodup.get_inj_iff).mp h1
    exact congrArg Fin.val this
  have hlast_lt : ∀ t : Symb, t ∈ W → st.last t < N ∧ x[st.last t]? = some t := by
    intro t ht
    have hseen := (hinv.hWmem t).mp ht
    rcases hinv.hlast t with h1 | h1
    · exact absurd h1 hseen
    · exact h1
  have henum_rank : ∀ pr ∈ W.enum, pr.1 = distinctBetween x (st.last pr.2) N := by
    intro pr hpr
    rw [← henum_idx pr hpr]
    exact W_indexOf_eq x N st.last W (Nat.le_refl N) hinv.hlast hinv.hmax
      hinv.hWmem hinv.hWsort pr.2 (List.getElem?_mem (henum pr hpr))
  have hguard : ∀ pr ∈ W.enum, st.last pr.2 + pr.1 + 1 ≤ N := by
    intro pr hpr
    have h1 := henum_rank pr hpr
    have h2 := (hlast_lt pr.2 (List.getElem?_mem (henum pr hpr))).1
    have h3 := distinctBetween_le x (st.last pr.2) N (Nat.le_refl N)
    omega
  have hpw : List.Pairwise (fun a b => st.last a.2 ≠ st.last b.2) W.enum := by
    have h1 : List.Pairwise (fun u v => st.last u ≠ st.last v) W :=
      hinv.hWsort.imp (fun hab => (Nat.ne_of_lt hab).symm)
    have h2 : List.map Prod.snd W.enum = W := List.enumFrom_map_snd 0 W
    have h3 : List.Pairwise (fun u v => st.last u ≠ st.last v) (List.map Prod.snd W.enum) ↔
        List.Pairwise (fun a b => st.last a.2 ≠ st.last b.2) W.enum := List.pairwise_map
    rw [h2] at h3
    exact h3.mp h1
  have hlen : ∀ pr ∈ W.enum, st.last pr.2 < st.distances.length := by
    intro pr hpr
    rw [hinv.hdlen]
    exact (hlast_lt pr.2 (List.getElem?_mem (henum pr hpr))).1
  obtain ⟨D', hsweep, hDlen, huntouched, hvals⟩ :=
    encSweep_spec N st.last W.enum st.distances hguard hpw hlen
  -- untouched slots: positions that are not the last occurrence of a symbol
  have hnotlast : ∀ (p : Nat) (s : Symb), x[p]? = some s →
      (∃ j, p < j ∧ j < N ∧ x[j]? = some s) → D'[p]? = st.distances[p]? := by
    intro p s hxp ⟨j, hj1, hj2, hj3⟩
    refine huntouched p ?_
    intro pr hpr heq
    have hW : x[st.last pr.2]? = some pr.2 := (hlast_lt pr.2 (List.getElem?_mem (henum pr hpr))).2
    rw [heq, hxp] at hW
    have hts : pr.2 = s := (Option.some.inj hW).symm
    obtain ⟨hle, -⟩ := hinv.hmax s j hj2 hj3
    rw [← hts] at hle
    omega
  -- last occurrences get the sweep value
  have hlastval : ∀ (p : Nat) (s : Symb), x[p]? = some s →
      (∀ j, p < j → j < N → x[j]? ≠ some s) →
      D'[p]? = some (N - p - distinctBetween x p N - 1) := by
    intro p s hxp hnone
    have hp : p < N := getElem?_some_lt hxp
    have hlastp : st.last s = p := by
      obtain ⟨hle, hlt⟩ := hinv.hmax s p hp hxp
      rcases hinv.hlast s with h1 | h1
      · omega
      · by_contra hne
        have hgt : p < st.last s := by omega
        exact hnone (st.last s) hgt h1.1 h1.2
    have hsW : s ∈ W := (hinv.hWmem s).mpr (by omega)
    have hio : W.indexOf s < W.length := List.indexOf_lt_length.mpr hsW
    have hmemenum : (W.indexOf s, s) ∈ W.enum := by
      rw [List.mk_mem_enum_iff_getElem?]
      rw [List.getElem?_eq_getElem hio]
      have h5 := List.indexOf_get hio
      rw [List.get_eq_getElem] at h5
      rw [h5]
    have hv := hvals (W.indexOf s, s) hmemenum
    have hrk := henum_rank (W.indexOf s, s) hmemenum
    simp only at hv hrk
    rw [hlastp] at hv hrk
    rw [hv, ← hrk]
  -- closed gaps keep their scan value
  have hgapval : ∀ (p j : Nat) (s : Symb), x[p]? = some s → p < j → j < N →
      x[j]? = some s → (∀ q, p < q → q < j → x[q]? ≠ some s) →
      D'[p]? = some (if j = p + 1 then N else j - p - distinctBetween x p j - 1) := by
    intro p j s hxp hj1 hj2 hj3 hjmin
    have hp : p < N := getElem?_some_lt hxp
    rw [hnotlast p s hxp ⟨j, hj1, hj2, hj3⟩]
    obtain ⟨-, hc2⟩ := hinv.hdist p s hp hxp
    exact hc2 j hj1 hj2 hj3 hjmin
  refine ⟨st, D', hscan, hinv, hsweep, by rw [hDlen, hinv.hdlen], hlastval, hgapval, ?_⟩
  -- a sentinel slot means the next position repeats the same symbol
  intro p s hxp hsent
  have hp : p < N := getElem?_some_lt hxp
  by_cases hex : ∃ j, p < j ∧ j < N ∧ x[j]? = some s
  · have hfind := Nat.find_spec hex
    set j0 := Nat.find hex with hj0def
    have hjmin : ∀ q, p < q → q < j0 → x[q]? ≠ some s := by
      intro q hq1 hq2 hq'
      have hqlt : q < N := by
        have := hfind.2.1
        omega
      exact Nat.find_min hex hq2 ⟨hq1, hqlt, hq'⟩
    have hval := hgapval p j0 s hxp hfind.1 hfind.2.1 hfind.2.2 hjmin
    rw [hsent] at hval
    by_cases hadj : j0 = p + 1
    · refine ⟨?_, ?_⟩
      · rw [← hadj]; exact hfind.2.2
      · rw [← hadj]; exact hfind.2.1
    · rw [if_neg hadj] at hval
      have hveq : j0 - p - distinctBetween x p j0 - 1 = N := (Option.some.inj hval).symm
      have := hfind.2.1
      omega
  · have hval := hlastval p s hxp (fun j hj1 hj2 hj3 => hex ⟨j, hj1, hj2, hj3⟩)
    rw [hsent] at hval
    have hveq : N - p - distinctBetween x p N - 1 = N := (Option.some.inj hval).symm
    omega

end DC

namespace DC

/-- The defensive final check of dc::encode always passes on the swept
buffer. -/
theorem finalCheck_true (x : List Symb) (D' : List Distance)
    (hchar : ∀ (p : Nat) (s : Symb), x[p]? = some s → D'[p]? = some x.length →
      x[p + 1]? = some s ∧ p + 1 < x.length) :
    finalCheck x D' x.length = true := by
  rw [finalCheck, List.all_eq_true]
  intro a ha
  obtain ⟨m, hm⟩ := List.mem_iff_getElem?.mp ha
  obtain ⟨⟨a1, a2⟩, d⟩ := a
  obtain ⟨hzz, hd⟩ := List.getElem?_zip_eq_some.mp hm
  obtain ⟨hx1, hx2⟩ := List.getElem?_zip_eq_some.mp hzz
  rw [List.getElem?_tail] at hx2
  by_cases hdN : d = x.length
  · subst hdN
    obtain ⟨hnext, -⟩ := hchar m a1 hx1 hd
    rw [hnext] at hx2
    have ha12 : a1 = a2 := Option.some.inj hx2
    simp [ha12]
  · simp [hdN]

end DC

/-- Claim C5: dc::encode succeeds on every input (no assert fires,
including the final zip check), and in the resulting distance buffer
every slot still holding the sentinel N sits at a position whose
immediately following input position holds the same symbol. -/
theorem c5_sentinel_adjacent (x : List Symb) :
    ∃ st : DC.EncSt, DC.encode x (List.replicate x.length 0) DC.MTF.new = some st ∧
      ∀ i : Nat, st.distances[i]? = some x.length →
        i + 1 < x.length ∧ x[i]? = x[i + 1]? := by
  obtain ⟨st, D', hscan, hinv, hsweep, hDlen, hlastval, hgapval, hchar⟩ :=
    DC.encode_full_spec x (List.replicate x.length 0) DC.MTF.new
      (List.length_replicate _ _) (List.length_replicate _ _)
  refine ⟨⟨D', st.last, st.mtf, st.unique⟩, ?_, ?_⟩
  · rw [DC.encode, if_pos (List.length_replicate _ _), hscan]
    dsimp only
    rw [hsweep]
    dsimp only
    rw [if_pos (DC.finalCheck_true x D' hchar)]
  · intro i hsent
    dsimp only at hsent
    obtain ⟨hlt, -⟩ := List.getElem?_eq_some.mp hsent
    rw [hDlen] at hlt
    have hxi : x[i]? = some (x.get ⟨i, hlt⟩) := by
      rw [List.getElem?_eq_getElem hlt, List.get_eq_getElem]
    obtain ⟨hnext, hplt⟩ := hchar i _ hxi hsent
    exact ⟨hplt, by rw [hxi, hnext]⟩

/-- Witness instantiating C5 on a concrete input with a sentinel slot
(input 0010 leaves slot 0 at the sentinel). -/
theorem c5_sentinel_adjacent_witness :
    ∃ st : DC.EncSt,
      DC.encode ([0, 0, 1, 0] : List Symb) (List.replicate 4 0) DC.MTF.new = some st ∧
      ∀ i : Nat, st.distances[i]? = some ([0, 0, 1, 0] : List Symb).length →
        i + 1 < ([0, 0, 1, 0] : List Symb).length ∧
        ([0, 0, 1, 0] : List Symb)[i]? = ([0, 0, 1, 0] : List Symb)[i + 1]? :=
  c5_sentinel_adjacent [0, 0, 1, 0]

namespace DC

/-! Basic list helper lemmas for the decode simulation. -/

theorem indexOf_min {l : List Symb} {s : Symb} :
    ∀ {k : Nat}, k < l.indexOf s → l[k]? ≠ some s := by
  induction l with
  | nil => intro k hk; rw [List.indexOf_nil] at hk; exact absurd hk (Nat.not_lt_zero k)
  | cons a t ih =>
    intro k hk
    by_cases ha : a = s
    · rw [ha, List.indexOf_cons_self] at hk
      exact absurd hk (Nat.not_lt_zero k)
    · rw [List.indexOf_cons_ne _ ha] at hk
      match k with
      | 0 =>
        intro hcon
        rw [List.getElem?_cons_zero] at hcon
        exact ha (Option.some.inj hcon)
      | k + 1 =>
        rw [List.getElem?_cons_succ]
        exact ih (by omega)

theorem indexOf_le_of_getElem? {l : List Symb} {s : Symb} :
    ∀ {k : Nat}, l[k]? = some s → l.indexOf s ≤ k := by
  intro k hk
  by_contra hcon
  exact (indexOf_min (Nat.lt_of_not_le hcon)) hk

theorem getElem?_indexOf {l : List Symb} {s : Symb} (h : s ∈ l) :
    l[l.indexOf s]? = some s := by
  have hlt : l.indexOf s < l.length := List.indexOf_lt_length.mpr h
  rw [List.getElem?_eq_getElem hlt]
  have h1 := List.indexOf_get hlt
  rw [List.get_eq_getElem] at h1
  rw [h1]

/-- In a list sorted strictly by a key, the key grows at least by the
index gap. -/
theorem sorted_key_gap {f : Symb → Nat} {l : List Symb}
    (hs : List.Pairwise (fun a b => f a < f b) l) :
    ∀ (d m : Nat) (hm : m < l.length) (hd : d ≤ m),
      f (l.get ⟨m - d, by omega⟩) + d ≤ f (l.get ⟨m, hm⟩) := by
  intro d
  induction d with
  | zero => intro m hm _; simp
  | succ d ih =>
    intro m hm hd
    have hpw := List.pairwise_iff_get.mp hs
    have h1 : f (l.get ⟨m - (d + 1), by omega⟩) < f (l.get ⟨m - d, by omega⟩) := by
      apply hpw
      simp only [Fin.mk_lt_mk]
      omega
    have h2 := ih m hm (by omega)
    omega

/-- In a list sorted strictly by a key, the entries with key below a
bound are exactly an initial segment, whose length is the filter
count. -/
theorem sorted_filter_pos {f : Symb → Nat} {c : Nat} :
    ∀ {l : List Symb}, List.Pairwise (fun a b => f a < f b) l →
      ∀ (m : Nat) (h : m < l.length),
        (m < (l.filter (fun a => decide (f a < c))).length ↔ f (l.get ⟨m, h⟩) < c) := by
  intro l
  induction l with
  | nil => intro _ m h; exact absurd h (Nat.not_lt_zero m)
  | cons w t ih =>
    intro hs m h
    obtain ⟨hhead, htail⟩ := List.pairwise_cons.mp hs
    by_cases hw : f w < c
    · rw [List.filter_cons_of_pos (by simpa using hw)]
      match m with
      | 0 => simpa using hw
      | m + 1 =>
        rw [List.length_cons]
        have := ih htail m (by simpa using h)
        constructor
        · intro h1
          simpa using this.mp (by omega)
        · intro h1
          have := this.mpr (by simpa using h1)
          omega
    · rw [List.filter_cons_of_neg (by simpa using hw)]
      have htf : t.filter (fun a => decide (f a < c)) = [] := by
        rw [List.filter_eq_nil]
        intro a ha
        have := hhead a ha
        simp only [decide_eq_true_eq]
        omega
      rw [htf]
      simp only [List.length_nil]
      constructor
      · intro h1; exact absurd h1 (Nat.not_lt_zero m)
      · intro h1
        exfalso
        match m with
        | 0 => exact hw (by simpa using h1)
        | m + 1 =>
          have := hhead (t.get ⟨m, by simpa using h⟩) (List.get_mem t m (by simpa using h))
          have h2 : f ((w :: t).get ⟨m + 1, h⟩) = f (t.get ⟨m, by simpa using h⟩) := rfl
          omega

/-- Setting a slot to the value it already holds is a no-op. -/
theorem set_self_of_getElem? {α : Type} {l : List α} {r : Nat} {a : α}
    (h : l[r]? = some a) : l.set r a = l := by
  apply List.ext_getElem?
  intro q
  by_cases hq : q = r
  · subst hq
    rw [List.getElem?_set_self (by
      obtain ⟨hk, -⟩ := List.getElem?_eq_some.mp h
      exact hk), h]
  · rw [List.getElem?_set_ne (fun hc => hq hc.symm)]

/-- A filter grows strictly when the predicate strictly widens on a
member. -/
theorem length_filter_lt {l : List Symb} {P Q : Symb → Bool}
    (hmono : ∀ a ∈ l, P a = true → Q a = true) (a0 : Symb) (h0 : a0 ∈ l)
    (hQ : Q a0 = true) (hP : ¬ P a0 = true) :
    (l.filter P).length < (l.filter Q).length := by
  induction l with
  | nil => cases h0
  | cons w t ih =>
    by_cases hw : w = a0
    · subst hw
      rw [List.filter_cons_of_pos hQ]
      rw [List.filter_cons_of_neg hP]
      have hle : (t.filter P).length ≤ (t.filter Q).length := by
        rw [← List.countP_eq_length_filter, ← List.countP_eq_length_filter]
        exact List.countP_mono_left (fun a ha hp => hmono a (List.mem_cons_of_mem _ ha) hp)
      rw [List.length_cons]
      omega
    · have h0' : a0 ∈ t := by
        rcases List.mem_cons.mp h0 with h1 | h1
        · exact absurd h1.symm hw
        · exact h1
      have ihr := ih (fun a ha hp => hmono a (List.mem_cons_of_mem _ ha) hp) h0'
      by_cases hPw : P w = true
      · rw [List.filter_cons_of_pos hPw, List.filter_cons_of_pos (hmono w (List.mem_cons_self _ _) hPw)]
        simpa using ihr
      · rw [List.filter_cons_of_neg hPw]
        by_cases hQw : Q w = true
        · rw [List.filter_cons_of_pos hQw]
          have := ihr
          simp only [List.length_cons]
          omega
        · rw [List.filter_cons_of_neg hQw]
          exact ihr

end DC

namespace DC

/-! Properties of nextPos, lastPos, deadIdx, nextSpec. -/

theorem nextPos_getElem (x : List Symb) (i : Nat) (s : Symb) (h : s ∈ x.drop i) :
    x[nextPos x i s]? = some s := by
  have h1 := getElem?_indexOf h
  rw [List.getElem?_drop] at h1
  exact h1

theorem nextPos_lt (x : List Symb) (i : Nat) (s : Symb) (h : s ∈ x.drop i) :
    nextPos x i s < x.length := by
  have hlt : (x.drop i).indexOf s < (x.drop i).length := List.indexOf_lt_length.mpr h
  rw [List.length_drop] at hlt
  rw [nextPos]
  omega

theorem nextPos_ge (x : List Symb) (i : Nat) (s : Symb) : i ≤ nextPos x i s :=
  Nat.le_add_right _ _

theorem nextPos_min (x : List Symb) (i : Nat) (s : Symb) :
    ∀ q, i ≤ q → q < nextPos x i s → x[q]? ≠ some s := by
  intro q hq1 hq2 hq'
  have h1 : (x.drop i)[q - i]? = some s := by
    rw [List.getElem?_drop, show i + (q - i) = q by omega]
    exact hq'
  have h2 := indexOf_le_of_getElem? h1
  rw [nextPos] at hq2
  omega

theorem nextPos_le_of_occ (x : List Symb) (i : Nat) (s : Symb) (q : Nat)
    (hq1 : i ≤ q) (hq : x[q]? = some s) :
    s ∈ x.drop i ∧ nextPos x i s ≤ q := by
  have h1 : (x.drop i)[q - i]? = some s := by
    rw [List.getElem?_drop, show i + (q - i) = q by omega]
    exact hq
  refine ⟨List.getElem?_mem h1, ?_⟩
  have h2 := indexOf_le_of_getElem? h1
  rw [nextPos]
  omega

theorem lastPos_getElem (x : List Symb) (s : Symb) (h : s ∈ x) :
    x[lastPos x s]? = some s := by
  have hrev : s ∈ x.reverse := List.mem_reverse.mpr h
  have hlt : x.reverse.indexOf s < x.reverse.length := List.indexOf_lt_length.mpr hrev
  rw [List.length_reverse] at hlt
  have hg := getElem?_indexOf hrev
  rw [List.getElem?_reverse hlt] at hg
  rw [lastPos]
  exact hg

theorem lastPos_lt_length (x : List Symb) (s : Symb) (h : s ∈ x) :
    lastPos x s < x.length :=
  getElem?_some_lt (lastPos_getElem x s h)

theorem lastPos_max (x : List Symb) (s : Symb) (h : s ∈ x) :
    ∀ q, lastPos x s < q → x[q]? ≠ some s := by
  intro q hq hq'
  have hqlt : q < x.length := getElem?_some_lt hq'
  have hrev : x.reverse[x.length - 1 - q]? = some s := by
    rw [List.getElem?_reverse (by omega)]
    rw [show x.length - 1 - (x.length - 1 - q) = q by omega]
    exact hq'
  have h2 := indexOf_le_of_getElem? hrev
  have hlt : x.reverse.indexOf s < x.reverse.length :=
    List.indexOf_lt_length.mpr (List.mem_reverse.mpr h)
  rw [List.length_reverse] at hlt
  rw [lastPos] at hq
  omega

theorem lastPos_ge (x : List Symb) (s : Symb) (q : Nat) (hq : x[q]? = some s) :
    q ≤ lastPos x s := by
  by_contra hcon
  exact lastPos_max x s (List.getElem?_mem hq) q (by omega) hq

theorem lastPos_inj (x : List Symb) {s t : Symb} (hs : s ∈ x) (ht : t ∈ x)
    (h : lastPos x s = lastPos x t) : s = t := by
  have h1 := lastPos_getElem x s hs
  have h2 := lastPos_getElem x t ht
  rw [h, h2] at h1
  exact (Option.some.inj h1).symm

theorem alive_iff (x : List Symb) (i : Nat) (s : Symb) (hs : s ∈ x) :
    s ∈ x.drop i ↔ i ≤ lastPos x s := by
  constructor
  · intro h
    have h1 := nextPos_getElem x i s h
    have h2 := lastPos_ge x s _ h1
    have h3 := nextPos_ge x i s
    omega
  · intro h
    have h1 : (x.drop i)[lastPos x s - i]? = some s := by
      rw [List.getElem?_drop, show i + (lastPos x s - i) = lastPos x s by omega]
      exact lastPos_getElem x s hs
    exact List.getElem?_mem h1

theorem deadIdx_lt (x : List Symb) (s : Symb) (hs : s ∈ x) :
    deadIdx x s < x.dedup.length := by
  have h1 := @length_filter_lt x.dedup
    (fun t => decide (lastPos x t < lastPos x s)) (fun _ => true)
    (fun a _ _ => rfl) s (List.mem_dedup.mpr hs) rfl (by simp)
  rw [List.filter_true] at h1
  exact h1

theorem deadIdx_strict (x : List Symb) {s t : Symb} (hs : s ∈ x) (ht : t ∈ x)
    (h : lastPos x s < lastPos x t) : deadIdx x s < deadIdx x t := by
  refine @length_filter_lt x.dedup
    (fun u => decide (lastPos x u < lastPos x s))
    (fun u => decide (lastPos x u < lastPos x t))
    ?_ s (List.mem_dedup.mpr hs) (by simp [h]) (by simp)
  intro a _ ha
  simp only [decide_eq_true_eq] at ha ⊢
  omega

theorem distinctBetween_eq_filter (x : List Symb) (p : Nat) :
    distinctBetween x p x.length
      = (x.dedup.filter (fun t => decide (p < lastPos x t))).length := by
  have hperm : (segment x p x.length).dedup.Perm
      (x.dedup.filter (fun t => decide (p < lastPos x t))) := by
    rw [List.perm_ext_iff_of_nodup (List.nodup_dedup _)
      ((List.nodup_dedup _).filter _)]
    intro t
    rw [List.mem_dedup, mem_segment, List.mem_filter, List.mem_dedup,
      decide_eq_true_eq]
    constructor
    · rintro ⟨q, hq1, hq2, hq3⟩
      have := lastPos_ge x t q hq3
      exact ⟨List.getElem?_mem hq3, by omega⟩
    · rintro ⟨ht, hlt⟩
      exact ⟨lastPos x t, hlt, lastPos_lt_length x t ht, lastPos_getElem x t ht⟩
  rw [distinctBetween, hperm.length_eq]

theorem counts_total (x : List Symb) (s : Symb) (hs : s ∈ x) :
    deadIdx x s + distinctBetween x (lastPos x s) x.length + 1 = x.dedup.length := by
  rw [distinctBetween_eq_filter x (lastPos x s)]
  have hsingle : x.dedup.filter (fun t => decide (lastPos x t = lastPos x s)) = [s] := by
    apply List.perm_singleton.mp
    rw [List.perm_ext_iff_of_nodup ((List.nodup_dedup _).filter _)
      (List.nodup_singleton s)]
    intro t
    rw [List.mem_filter, List.mem_dedup, List.mem_singleton, decide_eq_true_eq]
    constructor
    · rintro ⟨ht, heq⟩
      exact lastPos_inj x ht hs heq
    · rintro rfl
      exact ⟨hs, rfl⟩
  have hB : x.dedup.length
      = (x.dedup.filter (fun t => decide (lastPos x s < lastPos x t))).length
        + (x.dedup.filter (fun t => decide (lastPos x t ≤ lastPos x s))).length := by
    rw [← List.countP_eq_length_filter, ← List.countP_eq_length_filter]
    have h0 := List.length_eq_countP_add_countP
      (fun t : Symb => decide (lastPos x s < lastPos x t)) x.dedup
    rw [h0]
    congr 1
    apply List.countP_congr
    intro a _
    simp only [decide_eq_true_eq, Bool.not_eq_true', decide_eq_false_iff_not]
    omega
  have hA : (x.dedup.filter (fun t => decide (lastPos x t ≤ lastPos x s))).length
      = (x.dedup.filter (fun t => decide (lastPos x t < lastPos x s))).length
        + (x.dedup.filter (fun t => decide (lastPos x t = lastPos x s))).length := by
    rw [← List.countP_eq_length_filter, ← List.countP_eq_length_filter,
      ← List.countP_eq_length_filter]
    have h0 := List.length_eq_countP_add_countP
      (fun t : Symb => decide (lastPos x t < lastPos x s))
      (x.dedup.filter (fun t => decide (lastPos x t ≤ lastPos x s)))
    rw [← List.countP_eq_length_filter, List.countP_filter, List.countP_filter] at h0
    rw [h0]
    congr 1
    · apply List.countP_congr
      intro a _
      simp only [Bool.and_eq_true, decide_eq_true_eq]
      omega
    · apply List.countP_congr
      intro a _
      simp only [Bool.and_eq_true, Bool.not_eq_true', decide_eq_false_iff_not,
        decide_eq_true_eq]
      omega
  rw [hsingle] at hA
  simp only [List.length_singleton] at hA
  rw [deadIdx]
  omega

end DC

namespace DC

/-! Characterisation of the auxiliary loops of dc::decode: the fill
loop, the re-insertion scan, the tail-zeroing fold and the seeding
loop over an explicit alphabet. -/

theorem fillRun_spec (sym : Symb) (stop : Nat) :
    ∀ (n i : Nat) (output : List Symb), stop - i ≤ n → stop ≤ output.length →
      ∃ out', fillRun output i stop sym = some out' ∧
        out'.length = output.length ∧
        ∀ q, out'[q]? = if i ≤ q ∧ q < stop then some sym else output[q]? := by
  intro n
  induction n with
  | zero =>
    intro i output hn hlen
    rw [fillRun, if_neg (by omega)]
    exact ⟨output, rfl, rfl, fun q => by rw [if_neg (by omega)]⟩
  | succ n ih =>
    intro i output hn hlen
    by_cases hi : i < stop
    · have hio : i < output.length := by omega
      rw [fillRun, if_pos hi, if_pos hio]
      obtain ⟨out', heq, hlen', hdesc⟩ :=
        ih (i + 1) (output.set i sym) (by omega) (by rw [List.length_set]; exact hlen)
      refine ⟨out', heq, by rw [hlen', List.length_set], ?_⟩
      intro q
      rw [hdesc q]
      by_cases hq1 : i + 1 ≤ q ∧ q < stop
      · rw [if_pos hq1, if_pos ⟨by omega, hq1.2⟩]
      · by_cases hq2 : i ≤ q ∧ q < stop
        · have hqi : q = i := by omega
          rw [if_neg hq1, if_pos hq2, hqi, List.getElem?_set_self hio]
        · have hqne : i ≠ q := by
            intro h
            exact hq2 ⟨h ▸ Nat.le_refl i, h ▸ hi⟩
          rw [if_neg hq1, if_neg hq2, List.getElem?_set_ne hqne]
    · rw [fillRun, if_neg hi]
      exact ⟨output, rfl, rfl, fun q => by rw [if_neg (by omega)]⟩

theorem reinsert_spec (next : Symb → Nat) (future E : Nat) :
    ∀ (n start r0 : Nat) (mtf : MTF), E - start ≤ n → E ≤ mtf.length →
      1 ≤ start → start ≤ r0 → r0 ≤ E →
      (∀ r w, start ≤ r → r < r0 → mtf[r]? = some w → next w < future + r) →
      (r0 = E ∨ ∃ w, mtf[r0]? = some w ∧ ¬ next w < future + r0) →
      ∃ mtf', reinsert next future E mtf start = some (r0, mtf') ∧
        mtf'.length = mtf.length ∧
        (∀ q, q + 1 < start → mtf'[q]? = mtf[q]?) ∧
        (∀ q, start ≤ q + 1 → q + 1 < r0 → mtf'[q]? = mtf[q + 1]?) ∧
        (∀ q, r0 ≤ q + 1 → mtf'[q]? = mtf[q]?) := by
  intro n
  induction n with
  | zero =>
    intro start r0 mtf hn hE hs1 h1 h2 hcond hstop
    have hr0 : r0 = start := by omega
    rw [reinsert, dif_neg (by omega)]
    exact ⟨mtf, by rw [hr0], rfl, fun q _ => rfl,
      fun q hq1 hq2 => absurd hq2 (by omega), fun q _ => rfl⟩
  | succ n ih =>
    intro start r0 mtf hn hE hs1 h1 h2 hcond hstop
    by_cases hsE : start < E
    · have hw : ∃ w, mtf[start]? = some w := by
        rw [List.getElem?_eq_getElem (by omega)]
        exact ⟨_, rfl⟩
      obtain ⟨w, hw⟩ := hw
      rw [reinsert, dif_pos hsE, hw]
      dsimp only
      by_cases hr : start < r0
      · have hcw : next w < future + start := hcond start w (Nat.le_refl _) hr hw
        rw [if_pos hcw]
        obtain ⟨mtf', heq, hlen, hlo, hmid, hhi⟩ :=
          ih (start + 1) r0 (mtf.set (start - 1) w) (by omega)
            (by rw [List.length_set]; exact hE) (by omega) (by omega) h2
            (fun r w' hr1 hr2 hw' => hcond r w' (by omega) hr2
              (by rw [List.getElem?_set_ne (by omega)] at hw'; exact hw'))
            (by
              rcases hstop with h | ⟨w', hw', hnc⟩
              · exact Or.inl h
              · exact Or.inr ⟨w', by rw [List.getElem?_set_ne (by omega)]; exact hw', hnc⟩)
        refine ⟨mtf', heq, by rw [hlen, List.length_set], ?_, ?_, ?_⟩
        · intro q hq
          rw [hlo q (by omega), List.getElem?_set_ne (by omega)]
        · intro q hq1 hq2
          by_cases hqs : q + 1 = start
          · have hq' : q = start - 1 := by omega
            rw [hqs, hw, hlo q (by omega), hq', List.getElem?_set_self (by omega)]
          · rw [hmid q (by omega) hq2, List.getElem?_set_ne (by omega)]
        · intro q hq
          rw [hhi q hq, List.getElem?_set_ne (by omega)]
      · have hr0 : r0 = start := by omega
        rcases hstop with h | ⟨w', hw', hnc⟩
        · omega
        · rw [hr0, hw] at hw'
          have hww : w = w' := Option.some.inj hw'
          rw [if_neg (hww ▸ (hr0 ▸ hnc))]
          exact ⟨mtf, by rw [hr0], rfl, fun q _ => rfl,
            fun q hq1 hq2 => absurd hq2 (by omega), fun q _ => rfl⟩
    · have hr0 : r0 = start := by omega
      rw [reinsert, dif_neg hsE]
      exact ⟨mtf, by rw [hr0], rfl, fun q _ => rfl,
        fun q hq1 hq2 => absurd hq2 (by omega), fun q _ => rfl⟩

theorem foldl_set_zero_id : ∀ (l : List Nat) (m : MTF),
    (∀ r ∈ l, m[r]? = some 0) → l.foldl (fun m r => m.set r 0) m = m := by
  intro l
  induction l with
  | nil => intro m _; rfl
  | cons r t ih =>
    intro m hm
    rw [List.foldl_cons, set_self_of_getElem? (hm r (List.mem_cons_self _ _))]
    exact ih m (fun r' hr' => hm r' (List.mem_cons_of_mem _ hr'))

theorem zeroTail_id (mtf : MTF) (k : Nat) (hk : k ≤ TotalSymbols)
    (h : ∀ r, k ≤ r → r < TotalSymbols → mtf[r]? = some 0) :
    zeroTail mtf k = mtf := by
  rw [zeroTail]
  apply foldl_set_zero_id
  intro r hr
  have hmem := List.mem_range'_1.mp hr
  exact h r hmem.1 (by omega)

theorem seedSome_sim (dists : List Distance) :
    ∀ (alpha : List Symb) (k : Nat) (next : Symb → Nat) (mtf : MTF) (di : Nat),
      alpha.Nodup → di + alpha.length ≤ dists.length → k + alpha.length ≤ mtf.length →
      ∃ next' mtf',
        seedSome (simpleSource dists) (alpha.enumFrom k) next mtf di
          = .ok (next', mtf', di + alpha.length) ∧
        mtf'.length = mtf.length ∧
        (∀ s, s ∉ alpha → next' s = next s) ∧
        (∀ j s, alpha[j]? = some s → ∃ d, dists[di + j]? = some d ∧ next' s = d) ∧
        (∀ q, q < k → mtf'[q]? = mtf[q]?) ∧
        (∀ j, j < alpha.length → mtf'[k + j]? = alpha[j]?) ∧
        (∀ q, k + alpha.length ≤ q → mtf'[q]? = mtf[q]?) := by
  intro alpha
  induction alpha with
  | nil =>
    intro k next mtf di _ _ _
    refine ⟨next, mtf, ?_, rfl, fun s _ => rfl, ?_, fun q _ => rfl, ?_, fun q _ => rfl⟩
    · rw [List.length_nil, Nat.add_zero]
      rfl
    · intro j s hj
      rw [List.getElem?_nil] at hj
      cases hj
    · intro j hj
      rw [List.length_nil] at hj
      exact absurd hj (Nat.not_lt_zero j)
  | cons a rest ih =>
    intro k next mtf di hnodup hdlen hmlen
    rw [List.length_cons] at hdlen hmlen
    have hdi : ¬ di + 1 > dists.length := by omega
    obtain ⟨ha_rest, hnodup'⟩ := List.nodup_cons.mp hnodup
    have hstep : seedSome (simpleSource dists) ((a :: rest).enumFrom k) next mtf di
        = seedSome (simpleSource dists) (rest.enumFrom (k + 1))
            (Function.update next a (dists.get ⟨di, by omega⟩)) (mtf.set k a) (di + 1) := by
      show seedSome (simpleSource dists) ((k, a) :: rest.enumFrom (k + 1)) next mtf di = _
      rw [seedSome]
      simp only [simpleSource]
      rw [dif_neg hdi]
    obtain ⟨next', mtf', heq, hlen, hout, hin, hlo, hset, hhi⟩ :=
      ih (k + 1) (Function.update next a (dists.get ⟨di, by omega⟩)) (mtf.set k a) (di + 1)
        hnodup' (by omega) (by rw [List.length_set]; omega)
    refine ⟨next', mtf', ?_, by rw [hlen, List.length_set], ?_, ?_, ?_, ?_, ?_⟩
    · rw [hstep, heq, List.length_cons]
      have : di + (rest.length + 1) = di + 1 + rest.length := by omega
      rw [this]
    · intro s hs
      have hsa : s ≠ a := fun h => hs (h ▸ List.mem_cons_self a rest)
      have hsr : s ∉ rest := fun h => hs (List.mem_cons_of_mem a h)
      rw [hout s hsr, Function.update_noteq hsa]
    · intro j s hj
      match j with
      | 0 =>
        rw [List.getElem?_cons_zero] at hj
        have hsa : s = a := (Option.some.inj hj).symm
        refine ⟨dists.get ⟨di, by omega⟩, ?_, ?_⟩
        · rw [Nat.add_zero, List.getElem?_eq_getElem (by omega), List.get_eq_getElem]
        · rw [hsa, hout a ha_rest, Function.update_same]
      | j + 1 =>
        rw [List.getElem?_cons_succ] at hj
        obtain ⟨d, hd1, hd2⟩ := hin j s hj
        refine ⟨d, ?_, hd2⟩
        have : di + (j + 1) = di + 1 + j := by omega
        rw [this]
        exact hd1
    · intro q hq
      rw [hlo q (by omega), List.getElem?_set_ne (by omega)]
    · intro j hj
      rw [List.length_cons] at hj
      match j with
      | 0 =>
        rw [Nat.add_zero, hlo k (by omega), List.getElem?_set_self (by omega),
          List.getElem?_cons_zero]
      | j + 1 =>
        have : k + (j + 1) = k + 1 + j := by omega
        rw [this, hset j (by omega), List.getElem?_cons_succ]
    · intro q hq
      rw [List.length_cons] at hq
      rw [hhi q (by omega), List.getElem?_set_ne (by omega)]

end DC

namespace DC

/-! Behaviour of the tracked next-occurrence value over time. -/

theorem nextSpec_alive (x : List Symb) (i : Nat) (s : Symb) (h : s ∈ x.drop i) :
    nextSpec x i s = nextPos x i s := if_pos h

theorem nextSpec_dead (x : List Symb) (i : Nat) (s : Symb) (h : s ∉ x.drop i) :
    nextSpec x i s = x.length + deadIdx x s := if_neg h

theorem nextSpec_ge (x : List Symb) (i : Nat) (s : Symb) (hi : i ≤ x.length) :
    i ≤ nextSpec x i s := by
  by_cases h : s ∈ x.drop i
  · rw [nextSpec_alive x i s h]
    exact nextPos_ge x i s
  · rw [nextSpec_dead x i s h]
    omega

theorem nextSpec_lt_length (x : List Symb) (i : Nat) (s : Symb) (h : s ∈ x.drop i) :
    nextSpec x i s < x.length := by
  rw [nextSpec_alive x i s h]
  exact nextPos_lt x i s h

theorem nextSpec_ge_length (x : List Symb) (i : Nat) (s : Symb) (h : s ∉ x.drop i) :
    x.length ≤ nextSpec x i s := by
  rw [nextSpec_dead x i s h]
  omega

theorem nextSpec_getElem (x : List Symb) (i : Nat) (s : Symb) (h : s ∈ x.drop i) :
    x[nextSpec x i s]? = some s := by
  rw [nextSpec_alive x i s h]
  exact nextPos_getElem x i s h

theorem nextSpec_le_of_occ (x : List Symb) (i : Nat) (s : Symb) (q : Nat)
    (hq1 : i ≤ q) (hq : x[q]? = some s) : nextSpec x i s ≤ q := by
  obtain ⟨hmem, hle⟩ := nextPos_le_of_occ x i s q hq1 hq
  rw [nextSpec_alive x i s hmem]
  exact hle

theorem nextSpec_at (x : List Symb) (i : Nat) (s : Symb) (h : x[i]? = some s) :
    nextSpec x i s = i := by
  obtain ⟨hmem, hle⟩ := nextPos_le_of_occ x i s i (Nat.le_refl i) h
  rw [nextSpec_alive x i s hmem]
  have := nextPos_ge x i s
  omega

theorem deadIdx_of_not_mem (x : List Symb) (s : Symb) (h : s ∉ x) :
    deadIdx x s = 0 := by
  have h1 : List.indexOf s x.reverse = x.reverse.length :=
    List.indexOf_eq_length.mpr (fun hc => h (List.mem_reverse.mp hc))
  have h2 : lastPos x s = 0 := by
    rw [lastPos, h1, List.length_reverse]
    omega
  have h3 : x.dedup.filter (fun t => decide (lastPos x t < lastPos x s)) = [] := by
    rw [List.filter_eq_nil_iff]
    intro t _
    simp [h2]
  rw [deadIdx, h3, List.length_nil]

theorem nextSpec_notin (x : List Symb) (i : Nat) (s : Symb) (h : s ∉ x) :
    nextSpec x i s = x.length := by
  have hdrop : s ∉ x.drop i := fun hc => h (List.mem_of_mem_drop hc)
  rw [nextSpec_dead x i s hdrop, deadIdx_of_not_mem x s h, Nat.add_zero]

theorem nextSpec_stable (x : List Symb) (i i' : Nat) (s : Symb) (hii' : i ≤ i')
    (hi' : i' ≤ x.length) (hs : ∀ q, i ≤ q → q < i' → x[q]? ≠ some s) :
    nextSpec x i' s = nextSpec x i s := by
  by_cases h' : s ∈ x.drop i'
  · have hocc' := nextPos_getElem x i' s h'
    have hge' := nextPos_ge x i' s
    obtain ⟨hmem, hle⟩ := nextPos_le_of_occ x i s (nextPos x i' s) (by omega) hocc'
    rw [nextSpec_alive x i' s h', nextSpec_alive x i s hmem]
    have hocc := nextPos_getElem x i s hmem
    have hge := nextPos_ge x i s
    have hni : ¬ nextPos x i s < i' := fun hlt => hs (nextPos x i s) hge hlt hocc
    obtain ⟨-, hle2⟩ := nextPos_le_of_occ x i' s (nextPos x i s) (by omega) hocc
    omega
  · have hni : s ∉ x.drop i := by
      intro hmem
      have hocc := nextPos_getElem x i s hmem
      have hge := nextPos_ge x i s
      by_cases hlt : nextPos x i s < i'
      · exact hs _ hge hlt hocc
      · exact h' (nextPos_le_of_occ x i' s (nextPos x i s) (by omega) hocc).1
    rw [nextSpec_dead x i' s h', nextSpec_dead x i s hni]

theorem lastPos_eq_of_last_occ (x : List Symb) (p : Nat) (s : Symb)
    (hp : x[p]? = some s) (hlast : ∀ q, p < q → x[q]? ≠ some s) :
    lastPos x s = p := by
  have hmem : s ∈ x := List.getElem?_mem hp
  have hge := lastPos_ge x s p hp
  have hocc := lastPos_getElem x s hmem
  by_contra hne
  exact hlast (lastPos x s) (by omega) hocc

/-- Bridging lemma: when the output positions i..p all hold sym and sym
does not recur before position c, the number of distinct symbols of x
strictly between p and c equals the number of other alphabet symbols
whose tracked next position at time i is below c. -/
theorem distinctBetween_window (x : List Symb) (i p c : Nat) (sym : Symb) (rest : List Symb)
    (hip : i ≤ p) (hpc : p < c) (hcN : c ≤ x.length)
    (hfill : ∀ q, i ≤ q → q ≤ p → x[q]? = some sym)
    (hmem : ∀ t, t ∈ x ↔ t = sym ∨ t ∈ rest)
    (hsym : sym ∉ rest) (hnodup : rest.Nodup)
    (hnos : ∀ q, p < q → q < c → x[q]? ≠ some sym) :
    distinctBetween x p c
      = (rest.filter (fun t => decide (nextSpec x i t < c))).length := by
  have hperm : (segment x p c).dedup.Perm
      (rest.filter (fun t => decide (nextSpec x i t < c))) := by
    rw [List.perm_ext_iff_of_nodup (List.nodup_dedup _) (hnodup.filter _)]
    intro t
    rw [List.mem_dedup, mem_segment, List.mem_filter, decide_eq_true_eq]
    constructor
    · rintro ⟨q, hq1, hq2, hq3⟩
      have htx : t ∈ x := List.getElem?_mem hq3
      have htsym : t ≠ sym := by
        intro h
        exact hnos q hq1 hq2 (h ▸ hq3)
      have htrest : t ∈ rest := by
        rcases (hmem t).mp htx with h | h
        · exact absurd h htsym
        · exact h
      have hle := nextSpec_le_of_occ x i t q (by omega) hq3
      exact ⟨htrest, by omega⟩
    · rintro ⟨htrest, hlt⟩
      have htsym : t ≠ sym := fun h => hsym (h ▸ htrest)
      by_cases halive : t ∈ x.drop i
      · have hocc := nextSpec_getElem x i t halive
        have hge := nextSpec_ge x i t (by omega)
        have hgt : p < nextSpec x i t := by
          by_contra hc2
          have := hfill (nextSpec x i t) hge (by omega)
          rw [hocc] at this
          exact htsym (Option.some.inj this)
        exact ⟨nextSpec x i t, hgt, hlt, hocc⟩
      · have := nextSpec_ge_length x i t halive
        omega
  rw [distinctBetween, hperm.length_eq]

end DC

namespace DC

/-- Identification of the head of the sorted decode window: at fill
position i the window head is the symbol occurring at i, the next
position tracked for the second window entry strictly exceeds i, stays
within the buffer, and the whole stretch up to it repeats the head
symbol. -/
theorem window_head_fill (x : List Symb) (i : Nat) (sym w1 : Symb) (W2 : List Symb)
    (hiN : i < x.length)
    (hmem : ∀ s, s ∈ sym :: w1 :: W2 ↔ s ∈ x)
    (hsort : List.Pairwise (fun a b => nextSpec x i a < nextSpec x i b) (sym :: w1 :: W2)) :
    x[i]? = some sym ∧ i < nextSpec x i w1 ∧ nextSpec x i w1 ≤ x.length ∧
      (∀ q, i ≤ q → q < nextSpec x i w1 → x[q]? = some sym) := by
  obtain ⟨hhead, htail⟩ := List.pairwise_cons.mp hsort
  obtain ⟨hhead1, htail1⟩ := List.pairwise_cons.mp htail
  have hxi : x[i]? = some sym := by
    have hget : ∃ t, x[i]? = some t := by
      rw [List.getElem?_eq_getElem hiN]
      exact ⟨_, rfl⟩
    obtain ⟨t, ht⟩ := hget
    have htW : t ∈ sym :: w1 :: W2 := (hmem t).mpr (List.getElem?_mem ht)
    have hvt : nextSpec x i t = i := nextSpec_at x i t ht
    rcases List.mem_cons.mp htW with h1 | h1
    · rw [h1] at ht
      exact ht
    · exfalso
      have hlt : nextSpec x i sym < nextSpec x i t := hhead t h1
      have hge : i ≤ nextSpec x i sym := nextSpec_ge x i sym (by omega)
      omega
  have hsym_alive : sym ∈ x.drop i := (nextPos_le_of_occ x i sym i (Nat.le_refl i) hxi).1
  have hstop_gt : i < nextSpec x i w1 := by
    have h1 := hhead w1 (List.mem_cons_self _ _)
    have h2 : nextSpec x i sym = i := nextSpec_at x i sym hxi
    omega
  have hstop_le : nextSpec x i w1 ≤ x.length := by
    by_cases halive : w1 ∈ x.drop i
    · exact Nat.le_of_lt (nextSpec_lt_length x i w1 halive)
    · have hw1x : w1 ∈ x := (hmem w1).mp (List.mem_cons_of_mem _ (List.mem_cons_self _ _))
      have hw1dead : lastPos x w1 < i := by
        by_contra hcon
        exact halive ((alive_iff x i w1 hw1x).mpr (by omega))
      have hzero : deadIdx x w1 = 0 := by
        have hfilnil : x.dedup.filter (fun t => decide (lastPos x t < lastPos x w1)) = [] := by
          rw [List.filter_eq_nil_iff]
          intro u hu
          simp only [decide_eq_true_eq]
          intro hlt
          have hux : u ∈ x := List.mem_dedup.mp hu
          have hudead : u ∉ x.drop i := by
            intro hcc
            have := (alive_iff x i u hux).mp hcc
            omega
          have husym : u ≠ sym := by
            intro h
            exact hudead (h ▸ hsym_alive)
          have huW := (hmem u).mpr hux
          rcases List.mem_cons.mp huW with h1 | h1
          · exact husym h1
          rcases List.mem_cons.mp h1 with h2 | h2
          · rw [h2] at hlt
            omega
          · have hvlt := hhead1 u h2
            rw [nextSpec_dead x i w1 halive, nextSpec_dead x i u hudead] at hvlt
            have hdstrict := deadIdx_strict x hux hw1x hlt
            omega
        rw [deadIdx, hfilnil, List.length_nil]
      rw [nextSpec_dead x i w1 halive, hzero, Nat.add_zero]
  refine ⟨hxi, hstop_gt, hstop_le, ?_⟩
  intro q hq1 hq2
  have hqN : q < x.length := by omega
  have hget : ∃ t, x[q]? = some t := by
    rw [List.getElem?_eq_getElem hqN]
    exact ⟨_, rfl⟩
  obtain ⟨t, ht⟩ := hget
  have htW := (hmem t).mpr (List.getElem?_mem ht)
  have hvle := nextSpec_le_of_occ x i t q hq1 ht
  rcases List.mem_cons.mp htW with h1 | h1
  · rw [h1] at ht
    exact ht
  exfalso
  rcases List.mem_cons.mp h1 with h2 | h2
  · rw [h2] at hvle
    omega
  · have := hhead1 t h2
    omega

/-- The flat-slice distance source returns the slice entry at the
counter and advances the counter. -/
theorem simpleSource_eq (dists : List Distance) (di : Nat) (sym : Symb) (dp : Distance)
    (h : dists[di]? = some dp) : simpleSource dists di sym = .ok (dp, di + 1) := by
  obtain ⟨hlt, -⟩ := List.getElem?_eq_some.mp h
  show (if hc : di + 1 > dists.length
      then (Except.error IoError.endOfFile : Except IoError (Distance × Nat))
      else .ok (dists.get ⟨di, by omega⟩, di + 1)) = .ok (dp, di + 1)
  rw [dif_neg (by omega)]
  have hget : dists.get ⟨di, hlt⟩ = dp := by
    rw [List.get_eq_getElem]
    have h2 := List.getElem?_eq_getElem hlt
    rw [h] at h2
    exact (Option.some.inj h2).symm
  exact congrArg (fun v => (Except.ok (v, di + 1) : Except IoError (Distance × Nat))) hget

theorem filter_drop_congr (D2 : List Distance) (Nv : Nat) :
    ∀ (k i p : Nat), p - i ≤ k → i ≤ p →
      (∀ q, i ≤ q → q < p → D2[q]? = some Nv) →
      (D2.drop i).filter (fun d => !(d == Nv)) = (D2.drop p).filter (fun d => !(d == Nv)) := by
  intro k
  induction k with
  | zero =>
    intro i p h1 h2 _
    have h3 : i = p := by omega
    rw [h3]
  | succ k ih =>
    intro i p h1 h2 hq
    by_cases hip : i = p
    · rw [hip]
    · have hi : D2[i]? = some Nv := hq i (Nat.le_refl i) (by omega)
      obtain ⟨hilt, -⟩ := List.getElem?_eq_some.mp hi
      have hdropc : D2.drop i = Nv :: D2.drop (i + 1) := by
        rw [List.drop_eq_getElem_cons hilt]
        have h3 := List.getElem?_eq_getElem hilt
        rw [hi] at h3
        rw [show D2[i] = Nv from (Option.some.inj h3).symm]
      rw [hdropc, List.filter_cons_of_neg (by simp)]
      exact ih (i + 1) p (by omega) (by omega) (fun q hq1 hq2 => hq q (by omega) hq2)

/-- Decomposition of the remaining distance stream: sentinel slots up
to the first run end are skipped by the filter, and the run-end slot
provides the head. -/
theorem filter_drop_head (D2 : List Distance) (Nv i p dp : Nat) (hip : i ≤ p)
    (hsent : ∀ q, i ≤ q → q < p → D2[q]? = some Nv)
    (hp : D2[p]? = some dp) (hdp : dp ≠ Nv) :
    (D2.drop i).filter (fun d => !(d == Nv))
      = dp :: (D2.drop (p + 1)).filter (fun d => !(d == Nv)) := by
  rw [filter_drop_congr D2 Nv (p - i) i p (Nat.le_refl _) hip hsent]
  obtain ⟨hplt, -⟩ := List.getElem?_eq_some.mp hp
  have hdropc : D2.drop p = dp :: D2.drop (p + 1) := by
    rw [List.drop_eq_getElem_cons hplt]
    have h3 := List.getElem?_eq_getElem hplt
    rw [hp] at h3
    rw [show D2[p] = dp from (Option.some.inj h3).symm]
  rw [hdropc, List.filter_cons_of_pos (by simp [hdp])]

end DC

namespace DC

/-! Generic facts about strictly sorted windows and the insertion of a
symbol at its sorted position. -/

theorem sorted_filter_pos2 {f : Symb → Nat} {c : Nat} {l : List Symb}
    (hs : List.Pairwise (fun a b => f a < f b) l) (m : Nat) (a : Symb)
    (h : l[m]? = some a) :
    (m < (l.filter (fun t => decide (f t < c))).length ↔ f a < c) := by
  obtain ⟨hm, hget⟩ := List.getElem?_eq_some.mp h
  have h2 := @sorted_filter_pos f c l hs m hm
  have hga : l.get ⟨m, hm⟩ = a := by
    rw [List.get_eq_getElem]
    exact hget
  rw [hga] at h2
  exact h2

theorem sorted_key_gap2 {f : Symb → Nat} {l : List Symb}
    (hs : List.Pairwise (fun a b => f a < f b) l) :
    ∀ (m k : Nat) (a b : Symb), k ≤ m → l[k]? = some a → l[m]? = some b →
      f a + (m - k) ≤ f b := by
  intro m
  induction m with
  | zero =>
    intro k a b hkm ha hb
    have hk0 : k = 0 := by omega
    subst hk0
    rw [ha] at hb
    rw [Option.some.inj hb]
    omega
  | succ m ih =>
    intro k a b hkm ha hb
    by_cases hk : k = m + 1
    · subst hk
      rw [ha] at hb
      rw [Option.some.inj hb]
      omega
    · obtain ⟨hm1l, -⟩ := List.getElem?_eq_some.mp hb
      have hmlt : m < l.length := by omega
      obtain ⟨cm, hcm⟩ : ∃ cm, l[m]? = some cm := by
        rw [List.getElem?_eq_getElem hmlt]
        exact ⟨_, rfl⟩
      have h1 := ih k a cm (by omega) ha hcm
      have h2 : f cm < f b := by
        have hpw := List.pairwise_iff_getElem.mp hs m (m + 1) hmlt hm1l (Nat.lt_succ_self m)
        obtain ⟨hc1, hgc⟩ := List.getElem?_eq_some.mp hcm
        obtain ⟨hb1, hgb⟩ := List.getElem?_eq_some.mp hb
        rw [hgc, hgb] at hpw
        exact hpw
      omega

theorem sorted_filter_tail {f : Symb → Nat} {c : Nat} {l : List Symb}
    (hs : List.Pairwise (fun a b => f a < f b) l)
    (hne : ∀ t ∈ l, f t ≠ c) (k : Nat) (w : Symb)
    (hk : (l.filter (fun t => decide (f t < c))).length ≤ k) (hw : l[k]? = some w) :
    c < f w := by
  have h1 := @sorted_filter_pos2 f c l hs k w hw
  have h2 : ¬ f w < c := fun hc => absurd (h1.mpr hc) (by omega)
  have h3 := hne w (List.getElem?_mem hw)
  omega

theorem mem_insert_window (sym : Symb) (rest : List Symb) (B : Nat) (s : Symb) :
    s ∈ rest.take B ++ sym :: rest.drop B ↔ s = sym ∨ s ∈ rest := by
  rw [List.mem_append, List.mem_cons]
  constructor
  · rintro (h | h | h)
    · exact Or.inr (List.mem_of_mem_take h)
    · exact Or.inl h
    · exact Or.inr (List.mem_of_mem_drop h)
  · rintro (h | h)
    · exact Or.inr (Or.inl h)
    · rw [← List.take_append_drop B rest] at h
      rcases List.mem_append.mp h with h | h
      · exact Or.inl h
      · exact Or.inr (Or.inr h)

theorem sorted_insert_window {v v' : Symb → Nat} {sym : Symb} {rest : List Symb} {jv : Nat}
    (hsort : List.Pairwise (fun a b => v a < v b) rest)
    (hstab : ∀ t ∈ rest, v' t = v t)
    (hv'sym : v' sym = jv)
    (hnejv : ∀ t ∈ rest, v t ≠ jv) :
    List.Pairwise (fun a b => v' a < v' b)
      (rest.take ((rest.filter (fun t => decide (v t < jv))).length)
        ++ sym :: rest.drop ((rest.filter (fun t => decide (v t < jv))).length)) := by
  rw [List.pairwise_append]
  refine ⟨?_, ?_, ?_⟩
  · refine (hsort.take).imp_of_mem ?_
    intro a b ha hb hab
    rw [hstab a (List.mem_of_mem_take ha), hstab b (List.mem_of_mem_take hb)]
    exact hab
  · rw [List.pairwise_cons]
    refine ⟨?_, ?_⟩
    · intro b hb
      have hbr := List.mem_of_mem_drop hb
      rw [hv'sym, hstab b hbr]
      obtain ⟨k, hk⟩ := List.mem_iff_getElem?.mp hb
      rw [List.getElem?_drop] at hk
      exact sorted_filter_tail hsort hnejv _ b (Nat.le_add_right _ _) hk
    · refine (hsort.drop).imp_of_mem ?_
      intro a b ha hb hab
      rw [hstab a (List.mem_of_mem_drop ha), hstab b (List.mem_of_mem_drop hb)]
      exact hab
  · intro a ha b hb
    have har := List.mem_of_mem_take ha
    obtain ⟨k, hk⟩ := List.mem_iff_getElem?.mp ha
    obtain ⟨hkl, -⟩ := List.getElem?_eq_some.mp hk
    rw [List.length_take] at hkl
    have hkB : k < (rest.filter (fun t => decide (v t < jv))).length := by omega
    rw [List.getElem?_take_of_lt hkB] at hk
    have hva : v a < jv := (sorted_filter_pos2 hsort k a hk).mp hkB
    rw [hstab a har]
    rcases List.mem_cons.mp hb with h | h
    · rw [h, hv'sym]
      exact hva
    · rw [hstab b (List.mem_of_mem_drop h)]
      obtain ⟨k2, hk2⟩ := List.mem_iff_getElem?.mp h
      rw [List.getElem?_drop] at hk2
      have := sorted_filter_tail hsort hnejv _ b (Nat.le_add_right _ _) hk2
      omega

end DC

namespace DC

theorem dc_sub_ne {a b c N : Nat} (h : a < N) : a - b - c - 1 ≠ N := by omega

theorem dc_gap_arith {dB sv jv i : Nat} (h1 : i < sv) (h2 : sv ≤ jv) (h3 : jv ≠ sv)
    (h4 : dB ≤ jv - (sv - 1) - 1) : dB + (sv + (jv - (sv - 1) - dB - 1)) = jv := by omega

theorem dc_last_ne {b c N : Nat} (hN : 1 ≤ N) : N - b - c - 1 ≠ N := by omega

theorem dc_last_arith {R sv N A dI U i : Nat} (h1 : i < sv) (h2 : sv ≤ N)
    (h3 : R + 2 = U) (h4 : dI + A + 1 = U) (h5 : A ≤ N - (sv - 1) - 1) :
    (R + 1) + (sv + (N - (sv - 1) - A - 1)) = N + dI := by omega

theorem dc_window_len {B R q U : Nat} (h1 : ¬ q < U) (h2 : R + 2 = U) :
    min B (R + 1) + (R + 1 - B + 1) ≤ q := by omega

set_option maxHeartbeats 1600000 in
/-- One iteration of the dc::decode main loop, simulated against the
encoder characterisation of the distance buffer: from any invariant
state with unfilled output the loop steps to the next run boundary,
consumes exactly one distance from the slice, and re-establishes the
invariant. -/
theorem decodeStep_sim (x : List Symb) (D2 dists : List Distance)
    (hlastval : ∀ (p : Nat) (s : Symb), x[p]? = some s →
      (∀ j, p < j → j < x.length → x[j]? ≠ some s) →
      D2[p]? = some (x.length - p - distinctBetween x p x.length - 1))
    (hgapval : ∀ (p j : Nat) (s : Symb), x[p]? = some s → p < j → j < x.length →
      x[j]? = some s → (∀ q, p < q → q < j → x[q]? ≠ some s) →
      D2[p]? = some (if j = p + 1 then x.length
        else j - p - distinctBetween x p j - 1))
    (hU2 : 2 ≤ x.dedup.length)
    (fuel i : Nat) (st : DecSt Nat)
    (hinv : DecInv x D2 dists i st) (hiN : i < x.length) :
    ∃ stop st', decodeLoop (simpleSource dists) x.length x.dedup.length (fuel + 1) i st
        = decodeLoop (simpleSource dists) x.length x.dedup.length fuel stop st' ∧
      i < stop ∧ st'.s = st.s + 1 ∧ st.s < dists.length ∧ DecInv x D2 dists stop st' := by
  have hUles : x.dedup.length ≤ TotalSymbols := by
    have h1 := (List.nodup_dedup x).length_le_card
    rw [Fintype.card_fin] at h1
    exact h1
  have hUN : x.dedup.length ≤ x.length := (List.dedup_sublist x).length_le
  have hWlen : (st.mtf.take x.dedup.length).length = x.dedup.length :=
    List.length_take_of_le (by rw [hinv.hmlen]; exact hUles)
  obtain ⟨sym, w1, W2, hW⟩ : ∃ a b t, st.mtf.take x.dedup.length = a :: b :: t := by
    rcases hWm : st.mtf.take x.dedup.length with _ | ⟨a, _ | ⟨b, t⟩⟩
    · rw [hWm, List.length_nil] at hWlen
      omega
    · rw [hWm, List.length_cons, List.length_nil] at hWlen
      omega
    · exact ⟨a, b, t, rfl⟩
  have hmemW : ∀ s, s ∈ sym :: w1 :: W2 ↔ s ∈ x := fun s => hW ▸ hinv.hWmem s
  have hsortW : List.Pairwise (fun a b => nextSpec x i a < nextSpec x i b)
      (sym :: w1 :: W2) := hW ▸ hinv.hWsort
  obtain ⟨hxi, hstop_gt, hstop_le, hfill⟩ := window_head_fill x i sym w1 W2 hiN hmemW hsortW
  have hWnodup : (sym :: w1 :: W2).Nodup :=
    hsortW.imp (fun hab heq => absurd (heq ▸ hab) (lt_irrefl _))
  obtain ⟨hsymrest, hrestnodup⟩ := List.nodup_cons.mp hWnodup
  have hrest_sort : List.Pairwise (fun a b => nextSpec x i a < nextSpec x i b) (w1 :: W2) :=
    (List.pairwise_cons.mp hsortW).2
  have hmem2 : ∀ t, t ∈ x ↔ t = sym ∨ t ∈ w1 :: W2 := by
    intro t
    rw [← hmemW t, List.mem_cons]
  have hsym_x : sym ∈ x := List.getElem?_mem hxi
  have hrestlen : W2.length + 2 = x.dedup.length := by
    have h1 := hWlen
    rw [hW, List.length_cons, List.length_cons] at h1
    omega
  have hrl2 : (w1 :: W2).length = W2.length + 1 := by
    rw [List.length_cons]
  have hp_occ : x[nextSpec x i w1 - 1]? = some sym := hfill _ (by omega) (by omega)
  have hstab : ∀ t, t ≠ sym → nextSpec x (nextSpec x i w1) t = nextSpec x i t := by
    intro t hts
    apply nextSpec_stable x i _ t (by omega) hstop_le
    intro q hq1 hq2 hq'
    rw [hfill q hq1 hq2] at hq'
    exact hts (Option.some.inj hq').symm
  have hkey : ∃ dp : Nat, D2[nextSpec x i w1 - 1]? = some dp ∧ dp ≠ x.length ∧
      ((w1 :: W2).filter (fun t => decide (nextSpec x i t
          < nextSpec x (nextSpec x i w1) sym))).length
        + (nextSpec x i w1 + dp) = nextSpec x (nextSpec x i w1) sym ∧
      (∀ t ∈ w1 :: W2, nextSpec x i t ≠ nextSpec x (nextSpec x i w1) sym) := by
    by_cases halive : sym ∈ x.drop (nextSpec x i w1)
    · have hjv_occ := nextSpec_getElem x (nextSpec x i w1) sym halive
      have hjv_lt := nextSpec_lt_length x (nextSpec x i w1) sym halive
      have hjv_ge := nextSpec_ge x (nextSpec x i w1) sym hstop_le
      have hw1alive : w1 ∈ x.drop i := by
        by_contra hdead
        have := nextSpec_ge_length x i w1 hdead
        omega
      have hstop_occ := nextSpec_getElem x i w1 hw1alive
      have hw1sym : w1 ≠ sym := by
        intro h
        apply hsymrest
        rw [← h]
        exact List.mem_cons_self w1 W2
      have hjv_ne : nextSpec x (nextSpec x i w1) sym ≠ nextSpec x i w1 := by
        intro h
        rw [h, hstop_occ] at hjv_occ
        exact hw1sym (Option.some.inj hjv_occ)
      have hmin : ∀ q, nextSpec x i w1 - 1 < q → q < nextSpec x (nextSpec x i w1) sym →
          x[q]? ≠ some sym := by
        intro q hq1 hq2 hq'
        have := nextSpec_le_of_occ x (nextSpec x i w1) sym q (by omega) hq'
        omega
      have hDp := hgapval (nextSpec x i w1 - 1) (nextSpec x (nextSpec x i w1) sym) sym
        hp_occ (by omega) hjv_lt hjv_occ hmin
      rw [if_neg (by omega)] at hDp
      have hB := distinctBetween_window x i (nextSpec x i w1 - 1)
        (nextSpec x (nextSpec x i w1) sym) sym (w1 :: W2) (by omega) (by omega)
        (Nat.le_of_lt hjv_lt) (fun q hq1 hq2 => hfill q hq1 (by omega)) hmem2 hsymrest
        hrestnodup hmin
      have hdB := distinctBetween_le x (nextSpec x i w1 - 1)
        (nextSpec x (nextSpec x i w1) sym) (Nat.le_of_lt hjv_lt)
      have hnejv : ∀ t ∈ w1 :: W2,
          nextSpec x i t ≠ nextSpec x (nextSpec x i w1) sym := by
        intro t ht heq
        by_cases htalive : t ∈ x.drop i
        · have hocc := nextSpec_getElem x i t htalive
          rw [heq, hjv_occ] at hocc
          apply hsymrest
          rw [Option.some.inj hocc]
          exact ht
        · have := nextSpec_ge_length x i t htalive
          omega
      obtain ⟨jv, hjv⟩ : ∃ n, nextSpec x (nextSpec x i w1) sym = n := ⟨_, rfl⟩
      rw [hjv] at hDp hB hdB hjv_lt hjv_ge hjv_ne hnejv ⊢
      obtain ⟨sv, hsv⟩ : ∃ n, nextSpec x i w1 = n := ⟨_, rfl⟩
      rw [hsv] at hDp hB hdB hjv_ge hjv_ne hstop_gt hstop_le ⊢
      obtain ⟨dB, hdBdef⟩ : ∃ n, distinctBetween x (sv - 1) jv = n := ⟨_, rfl⟩
      rw [hdBdef] at hDp hB hdB
      refine ⟨jv - (sv - 1) - dB - 1, hDp, ?_, ?_, hnejv⟩
      · exact dc_sub_ne hjv_lt
      · rw [← hB]
        exact dc_gap_arith hstop_gt hjv_ge hjv_ne hdB
    · have hlastp : lastPos x sym = nextSpec x i w1 - 1 := by
        apply lastPos_eq_of_last_occ x _ sym hp_occ
        intro q hq hq'
        exact halive (nextPos_le_of_occ x (nextSpec x i w1) sym q (by omega) hq').1
      have hnolater : ∀ j, nextSpec x i w1 - 1 < j → j < x.length → x[j]? ≠ some sym := by
        intro j hj1 hj2 hq'
        exact halive (nextPos_le_of_occ x (nextSpec x i w1) sym j (by omega) hq').1
      have hDp := hlastval (nextSpec x i w1 - 1) sym hp_occ hnolater
      have hjv_def : nextSpec x (nextSpec x i w1) sym = x.length + deadIdx x sym :=
        nextSpec_dead x (nextSpec x i w1) sym halive
      have hdA := distinctBetween_le x (nextSpec x i w1 - 1) x.length (Nat.le_refl _)
      have hct := counts_total x sym hsym_x
      rw [hlastp] at hct
      have hBfull : (w1 :: W2).filter
          (fun t => decide (nextSpec x i t < nextSpec x (nextSpec x i w1) sym))
            = w1 :: W2 := by
        rw [List.filter_eq_self]
        intro t ht
        simp only [decide_eq_true_eq]
        have htx : t ∈ x := (hmem2 t).mpr (Or.inr ht)
        have htsym : t ≠ sym := fun h => hsymrest (h ▸ ht)
        rw [hjv_def]
        by_cases htalive : t ∈ x.drop i
        · have := nextSpec_lt_length x i t htalive
          omega
        · have h1 := nextSpec_dead x i t htalive
          have hlt_t : lastPos x t < i := by
            by_contra hcon
            exact htalive ((alive_iff x i t htx).mpr (by omega))
          have hlt2 : lastPos x t < lastPos x sym := by
            rw [hlastp]
            omega
          have := deadIdx_strict x htx hsym_x hlt2
          rw [h1]
          omega
      have hnejv : ∀ t ∈ w1 :: W2,
          nextSpec x i t ≠ nextSpec x (nextSpec x i w1) sym := by
        intro t ht heq
        have htx : t ∈ x := (hmem2 t).mpr (Or.inr ht)
        have htsym : t ≠ sym := fun h => hsymrest (h ▸ ht)
        by_cases htalive : t ∈ x.drop i
        · have := nextSpec_lt_length x i t htalive
          rw [hjv_def] at heq
          omega
        · have h1 := nextSpec_dead x i t htalive
          have hlt_t : lastPos x t < i := by
            by_contra hcon
            exact htalive ((alive_iff x i t htx).mpr (by omega))
          have hlt2 : lastPos x t < lastPos x sym := by
            rw [hlastp]
            omega
          have := deadIdx_strict x htx hsym_x hlt2
          rw [h1, hjv_def] at heq
          omega
      obtain ⟨sv, hsv⟩ : ∃ n, nextSpec x i w1 = n := ⟨_, rfl⟩
      rw [hsv] at hDp hjv_def hBfull hnejv hstop_gt hstop_le hdA hct ⊢
      obtain ⟨A, hAdef⟩ : ∃ n, distinctBetween x (sv - 1) x.length = n := ⟨_, rfl⟩
      rw [hAdef] at hDp hdA hct
      obtain ⟨dI, hdI⟩ : ∃ n, deadIdx x sym = n := ⟨_, rfl⟩
      rw [hdI] at hjv_def hct
      refine ⟨x.length - (sv - 1) - A - 1, hDp, ?_, ?_, hnejv⟩
      · exact dc_last_ne (by omega)
      · rw [hBfull, hjv_def, List.length_cons]
        exact dc_last_arith hstop_gt hstop_le hrestlen hct hdA
  obtain ⟨dp, hDp, hdpN, hkeyeq, hnejv⟩ := hkey
  have hsent : ∀ q, i ≤ q → q < nextSpec x i w1 - 1 → D2[q]? = some x.length := by
    intro q hq1 hq2
    have h1 := hfill q hq1 (by omega)
    have h2 := hfill (q + 1) (by omega) (by omega)
    have h3 := hgapval q (q + 1) sym h1 (Nat.lt_succ_self q) (by omega) h2
      (fun u hu1 hu2 => absurd hu1 (by omega))
    rw [if_pos rfl] at h3
    exact h3
  have hhead_stream : (D2.drop i).filter (fun d => !(d == x.length))
      = dp :: (D2.drop (nextSpec x i w1)).filter (fun d => !(d == x.length)) := by
    have h1 := filter_drop_head D2 x.length i (nextSpec x i w1 - 1) dp (by omega)
      hsent hDp hdpN
    rw [show nextSpec x i w1 - 1 + 1 = nextSpec x i w1 from by omega] at h1
    exact h1
  have hsdrop : dists.drop st.s
      = dp :: (D2.drop (nextSpec x i w1)).filter (fun d => !(d == x.length)) := by
    rw [hinv.hdi, hhead_stream]
  have hdists_s : dists[st.s]? = some dp := by
    have h0 : (dists.drop st.s)[0]? = some dp := by
      rw [hsdrop, List.getElem?_cons_zero]
    rw [List.getElem?_drop] at h0
    exact h0
  obtain ⟨hslt, -⟩ := List.getElem?_eq_some.mp hdists_s
  have hmtf0 : st.mtf[0]? = some sym := by
    have h0 : (st.mtf.take x.dedup.length)[0]? = some sym := by
      rw [hW, List.getElem?_cons_zero]
    rw [List.getElem?_take_of_lt (by omega)] at h0
    exact h0
  have hmtf1 : st.mtf[1]? = some w1 := by
    have h0 : (st.mtf.take x.dedup.length)[1]? = some w1 := by
      rw [hW, List.getElem?_cons_succ, List.getElem?_cons_zero]
    rw [List.getElem?_take_of_lt (by omega)] at h0
    exact h0
  generalize hBdef : ((w1 :: W2).filter (fun t => decide (nextSpec x i t
      < nextSpec x (nextSpec x i w1) sym))).length = B at hkeyeq
  have hBle : B ≤ W2.length + 1 := by
    rw [← hBdef]
    have h1 := List.length_filter_le (fun t => decide (nextSpec x i t
        < nextSpec x (nextSpec x i w1) sym)) (w1 :: W2)
    rw [List.length_cons] at h1
    exact h1
  have hcond : ∀ r w, 1 ≤ r → r < B + 1 →
      st.mtf[r]? = some w → st.next w < (nextSpec x i w1 + dp) + r := by
    intro r w hr1 hr2 hw
    obtain ⟨r', rfl⟩ : ∃ r', r = r' + 1 := ⟨r - 1, by omega⟩
    have hWr : (st.mtf.take x.dedup.length)[r' + 1]? = some w := by
      rw [List.getElem?_take_of_lt (by omega)]
      exact hw
    rw [hW, List.getElem?_cons_succ] at hWr
    have hvw : nextSpec x i w < nextSpec x (nextSpec x i w1) sym :=
      (sorted_filter_pos2 hrest_sort r' w hWr).mp (by rw [hBdef]; omega)
    obtain ⟨wB, hwB⟩ : ∃ wB, (w1 :: W2)[B - 1]? = some wB := by
      rw [List.getElem?_eq_getElem (by omega)]
      exact ⟨_, rfl⟩
    have hvB : nextSpec x i wB < nextSpec x (nextSpec x i w1) sym :=
      (sorted_filter_pos2 hrest_sort (B - 1) wB hwB).mp (by rw [hBdef]; omega)
    have hgap := sorted_key_gap2 hrest_sort (B - 1) r' w wB (by omega) hWr hwB
    rw [hinv.hnext w]
    omega
  have hstop' : B + 1 = x.dedup.length ∨ ∃ w, st.mtf[B + 1]? = some w ∧
      ¬ st.next w < (nextSpec x i w1 + dp) + (B + 1) := by
    by_cases hU : B + 1 = x.dedup.length
    · exact Or.inl hU
    · right
      obtain ⟨w, hw⟩ : ∃ w, st.mtf[B + 1]? = some w := by
        rw [List.getElem?_eq_getElem (show B + 1 < st.mtf.length by
          rw [hinv.hmlen]
          omega)]
        exact ⟨_, rfl⟩
      refine ⟨w, hw, ?_⟩
      have hWr : (st.mtf.take x.dedup.length)[B + 1]? = some w := by
        rw [List.getElem?_take_of_lt (by omega)]
        exact hw
      rw [hW, List.getElem?_cons_succ] at hWr
      have hge : ¬ nextSpec x i w < nextSpec x (nextSpec x i w1) sym := by
        intro hc
        have := (sorted_filter_pos2 hrest_sort B w hWr).mpr hc
        omega
      have hne := hnejv w (List.getElem?_mem hWr)
      rw [hinv.hnext w]
      omega
  obtain ⟨mtf2, hre, hrlen, hlo, hmid, hhi⟩ :=
    reinsert_spec st.next (nextSpec x i w1 + dp) x.dedup.length x.dedup.length 1 (B + 1)
      st.mtf (by omega) (by rw [hinv.hmlen]; exact hUles) (Nat.le_refl 1) (by omega)
      (by omega) hcond hstop'
  obtain ⟨out', hfr, hflen, hfdesc⟩ := fillRun_spec sym (nextSpec x i w1)
    (nextSpec x i w1) i st.output (by omega) (by rw [hinv.holen]; exact hstop_le)
  rw [decodeLoop, if_pos hiN, hmtf0, hmtf1]
  dsimp only
  rw [hinv.hnext w1, hfr]
  dsimp only
  rw [simpleSource_eq dists st.s sym dp hdists_s]
  dsimp only
  rw [hre]
  dsimp only
  rw [show max i (nextSpec x i w1) = nextSpec x i w1 from Nat.max_eq_right (by omega)]
  rw [show B + 1 - 1 = B from by omega]
  rw [show nextSpec x i w1 + dp + (B + 1) - 1 = nextSpec x i w1 + dp + B from by omega]
  refine ⟨nextSpec x i w1,
    ⟨out', mtf2.set B sym, Function.update st.next sym (nextSpec x i w1 + dp + B),
      st.s + 1⟩, rfl, hstop_gt, rfl, hslt, ?_⟩
  have hnewget : ∀ q, q < x.dedup.length →
      ((mtf2.set B sym).take x.dedup.length)[q]?
        = if q < B then (w1 :: W2)[q]?
          else if q = B then some sym else (w1 :: W2)[q - 1]? := by
    intro q hq
    rw [List.getElem?_take_of_lt hq]
    by_cases hqB : q = B
    · rw [if_neg (by omega), if_pos hqB, hqB,
        List.getElem?_set_self (by rw [hrlen, hinv.hmlen]; omega)]
    · rw [List.getElem?_set_ne (fun h => hqB h.symm)]
      by_cases hqlt : q < B
      · rw [if_pos hqlt, hmid q (by omega) (by omega)]
        have h1 : (st.mtf.take x.dedup.length)[q + 1]? = st.mtf[q + 1]? :=
          List.getElem?_take_of_lt (by omega)
        rw [← h1, hW, List.getElem?_cons_succ]
      · rw [if_neg hqlt, if_neg hqB, hhi q (by omega)]
        have h1 : (st.mtf.take x.dedup.length)[q]? = st.mtf[q]? :=
          List.getElem?_take_of_lt hq
        rw [← h1, hW]
        obtain ⟨q', rfl⟩ : ∃ q', q = q' + 1 := ⟨q - 1, by omega⟩
        rw [List.getElem?_cons_succ]
        rw [show q' + 1 - 1 = q' from by omega]
  have hnewlen : ((mtf2.set B sym).take x.dedup.length).length = x.dedup.length :=
    List.length_take_of_le (by rw [List.length_set, hrlen, hinv.hmlen]; exact hUles)
  have hneweq : (mtf2.set B sym).take x.dedup.length
      = (w1 :: W2).take B ++ sym :: (w1 :: W2).drop B := by
    apply List.ext_getElem?
    intro q
    by_cases hq : q < x.dedup.length
    · rw [hnewget q hq]
      by_cases hq1 : q < B
      · rw [if_pos hq1, List.getElem?_append_left (by rw [List.length_take]; omega),
          List.getElem?_take_of_lt hq1]
      · by_cases hqB : q = B
        · rw [if_neg hq1, if_pos hqB,
            List.getElem?_append_right (by rw [List.length_take]; omega),
            List.length_take]
          rw [show q - min B (w1 :: W2).length = 0 from by omega,
            List.getElem?_cons_zero]
        · rw [if_neg hq1, if_neg hqB,
            List.getElem?_append_right (by rw [List.length_take]; omega),
            List.length_take]
          rw [show q - min B (w1 :: W2).length = (q - B - 1) + 1 from by omega]
          rw [List.getElem?_cons_succ, List.getElem?_drop]
          rw [show B + (q - B - 1) = q - 1 from by omega]
    · have h1 : ((mtf2.set B sym).take x.dedup.length)[q]? = none :=
        List.getElem?_eq_none (by rw [hnewlen]; omega)
      have h2 : ((w1 :: W2).take B ++ sym :: (w1 :: W2).drop B)[q]? = none := by
        apply List.getElem?_eq_none
        simp only [List.length_append, List.length_take, List.length_cons, List.length_drop]
        exact dc_window_len hq hrestlen
      rw [h1, h2]
  refine ⟨hstop_le, ?_, ?_, ?_, ?_, ?_, ?_, ?_⟩
  · dsimp only
    rw [hflen, hinv.holen]
  · dsimp only
    intro q hq
    rw [hfdesc q]
    by_cases hq2 : i ≤ q ∧ q < nextSpec x i w1
    · rw [if_pos hq2]
      exact (hfill q hq2.1 hq2.2).symm
    · rw [if_neg hq2]
      exact hinv.hout q (by omega)
  · dsimp only
    rw [List.length_set, hrlen, hinv.hmlen]
  · dsimp only
    intro s
    rw [hneweq, mem_insert_window]
    exact (hmem2 s).symm
  · dsimp only
    rw [hneweq]
    have hsw := sorted_insert_window hrest_sort
      (fun t ht => hstab t (fun h => hsymrest (h ▸ ht))) rfl hnejv
    rw [hBdef] at hsw
    exact hsw
  · dsimp only
    intro s
    by_cases hssym : s = sym
    · rw [hssym, Function.update_same]
      omega
    · rw [Function.update_noteq hssym, hinv.hnext s]
      exact (hstab s hssym).symm
  · dsimp only
    have h1 : (dists.drop st.s).drop 1 = dists.drop (st.s + 1) := by
      rw [List.drop_drop]
    rw [← h1, hsdrop]
    rfl

end DC

namespace DC

/-- The dc::decode main loop, run from any invariant state with enough
fuel, terminates with Ok and the fully reconstructed input in the
output buffer: every iteration advances the fill position and consumes
one distance, and at the end both defensive asserts pass. -/
theorem decodeLoop_sim (x : List Symb) (D2 dists : List Distance)
    (hlastval : ∀ (p : Nat) (s : Symb), x[p]? = some s →
      (∀ j, p < j → j < x.length → x[j]? ≠ some s) →
      D2[p]? = some (x.length - p - distinctBetween x p x.length - 1))
    (hgapval : ∀ (p j : Nat) (s : Symb), x[p]? = some s → p < j → j < x.length →
      x[j]? = some s → (∀ q, p < q → q < j → x[q]? ≠ some s) →
      D2[p]? = some (if j = p + 1 then x.length
        else j - p - distinctBetween x p j - 1))
    (hU2 : 2 ≤ x.dedup.length) :
    ∀ (fuel i : Nat) (st : DecSt Nat), DecInv x D2 dists i st →
      dists.length - st.s + 2 ≤ fuel →
      ∃ st', decodeLoop (simpleSource dists) x.length x.dedup.length fuel i st
          = DcResult.ok st' ∧ st'.output = x := by
  intro fuel
  induction fuel with
  | zero =>
    intro i st hinv hfuel
    omega
  | succ fuel ih =>
    intro i st hinv hfuel
    by_cases hiN : i < x.length
    · obtain ⟨stop, st', heq, hlt, hs1, hs2, hinv'⟩ :=
        decodeStep_sim x D2 dists hlastval hgapval hU2 fuel i st hinv hiN
      rw [heq]
      exact ih stop st' hinv' (by omega)
    · have hiEq : i = x.length := by
        have := hinv.hiN
        omega
      subst hiEq
      have hdropnil : x.drop x.length = ([] : List Symb) := List.drop_length x
      have hall : (List.finRange TotalSymbols).all
          (fun y => !(decide (st.next y < x.length) ||
            decide (x.length + x.dedup.length ≤ st.next y))) = true := by
        rw [List.all_eq_true]
        intro y hy
        simp only [Bool.not_eq_true', Bool.or_eq_false_iff, decide_eq_false_iff_not]
        rw [hinv.hnext y]
        by_cases hyx : y ∈ x
        · have hdead : y ∉ x.drop x.length := by
            rw [hdropnil]
            exact List.not_mem_nil y
          rw [nextSpec_dead x x.length y hdead]
          have := deadIdx_lt x y hyx
          constructor
          · omega
          · omega
        · rw [nextSpec_notin x x.length y hyx]
          constructor
          · omega
          · omega
      rw [decodeLoop, if_neg hiN, if_pos hall, if_pos rfl]
      refine ⟨st, rfl, ?_⟩
      have hlen := hinv.holen
      apply List.ext_getElem?
      intro q
      by_cases hq : q < x.length
      · exact hinv.hout q hq
      · rw [List.getElem?_eq_none (by omega), List.getElem?_eq_none (by omega)]

end DC

namespace DC

/-- The alphabet flattened out of the scan state by dc::encode_simple:
it lists exactly the distinct symbols of the input, without
duplicates, paired in unique with their first-occurrence positions,
and is sorted by first occurrence. -/
theorem alphabet_facts (x : List Symb) (d0 : List Distance) (st : EncSt)
    (hinv : EncInv x d0 x.length st) :
    (∀ s, s ∈ st.unique.map Prod.fst ↔ s ∈ x) ∧
    (st.unique.map Prod.fst).Nodup ∧
    (st.unique.map Prod.fst).length = x.dedup.length ∧
    (∀ p ∈ st.unique, nextSpec x 0 p.1 = p.2) ∧
    List.Pairwise (fun a b => nextSpec x 0 a < nextSpec x 0 b)
      (st.unique.map Prod.fst) := by
  have hseen : ∀ s : Symb, st.last s ≠ x.length ↔ s ∈ x := by
    intro s
    constructor
    · intro h
      rcases hinv.hlast s with h1 | h1
      · exact absurd h1 h
      · exact List.getElem?_mem h1.2
    · intro hs
      obtain ⟨q, hq⟩ := List.mem_iff_getElem?.mp hs
      have hqlt : q < x.length := getElem?_some_lt hq
      have := hinv.hmax s q hqlt hq
      omega
  have hmem1 : ∀ s, s ∈ st.unique.map Prod.fst ↔ s ∈ x := by
    intro s
    rw [List.mem_map]
    constructor
    · rintro ⟨p, hp, rfl⟩
      refine (hseen p.1).mp ((hinv.huniq_mem p.1).mp ⟨p.2, ?_⟩)
      rw [Prod.mk.eta]
      exact hp
    · intro hs
      obtain ⟨f, hf⟩ := (hinv.huniq_mem s).mpr ((hseen s).mpr hs)
      exact ⟨(s, f), hf, rfl⟩
  have hfirst : ∀ p ∈ st.unique, nextSpec x 0 p.1 = p.2 := by
    intro p hp
    obtain ⟨hocc, hmin⟩ := hinv.huniq_first p hp
    have hm : p.1 ∈ x.drop 0 := by
      rw [List.drop_zero]
      exact List.getElem?_mem hocc
    rw [nextSpec_alive x 0 p.1 hm]
    have h1 := (nextPos_le_of_occ x 0 p.1 p.2 (Nat.zero_le _) hocc).2
    have h2 := nextPos_getElem x 0 p.1 hm
    by_contra hne
    exact hmin (nextPos x 0 p.1) (Nat.lt_of_le_of_ne h1 hne) h2
  have hnodup : (st.unique.map Prod.fst).Nodup := by
    apply List.pairwise_map.mpr
    refine hinv.huniq_inc.imp_of_mem ?_
    intro a b ha hb hab heq
    obtain ⟨hocca, -⟩ := hinv.huniq_first a ha
    obtain ⟨-, hminb⟩ := hinv.huniq_first b hb
    rw [heq] at hocca
    exact hminb a.2 hab hocca
  have hlen : (st.unique.map Prod.fst).length = x.dedup.length := by
    have hperm : (st.unique.map Prod.fst).Perm x.dedup := by
      rw [List.perm_ext_iff_of_nodup hnodup (List.nodup_dedup x)]
      intro s
      rw [List.mem_dedup]
      exact hmem1 s
    exact hperm.length_eq
  refine ⟨hmem1, hnodup, hlen, hfirst, ?_⟩
  apply List.pairwise_map.mpr
  refine hinv.huniq_inc.imp_of_mem ?_
  intro a b ha hb hab
  rw [hfirst a ha, hfirst b hb]
  exact hab

end DC

set_option maxHeartbeats 1600000 in
/-- Claim C1: for every byte sequence x, dc::encode_simple succeeds and
returns an alphabet and a distance stream from which dc::decode_simple,
given the length of x, reconstructs exactly x (full DC round trip). -/
theorem c1_roundtrip (x : List Symb) :
    ∃ a d, DC.encode_simple x = some (a, d) ∧
      DC.decode_simple x.length a d = some x := by
  by_cases hN0 : x.length = 0
  · have hx : x = [] := List.length_eq_zero.mp hN0
    subst hx
    exact ⟨[], [], rfl, rfl⟩
  obtain ⟨st, D2, hscan, hinv, hsweep, hD2len, hlastval, hgapval, hchar⟩ :=
    DC.encode_full_spec x (List.replicate x.length 0) DC.MTF.new
      (List.length_replicate _ _) (List.length_replicate _ _)
  have hencode : DC.encode x (List.replicate x.length 0) DC.MTF.new
      = some ⟨D2, st.last, st.mtf, st.unique⟩ := by
    rw [DC.encode, if_pos (List.length_replicate _ _), hscan]
    dsimp only
    rw [hsweep]
    dsimp only
    rw [if_pos (DC.finalCheck_true x D2 hchar)]
  have henc : DC.encode_simple x = some (st.unique.map Prod.fst,
      st.unique.map Prod.snd ++ D2.filter (fun d => !(d == x.length))) := by
    rw [DC.encode_simple]
    rw [if_neg hN0, hencode]
  obtain ⟨hmemA, hnodupA, hlenA, hfirstA, hsortA⟩ :=
    DC.alphabet_facts x (List.replicate x.length 0) st hinv
  refine ⟨st.unique.map Prod.fst,
    st.unique.map Prod.snd ++ D2.filter (fun d => !(d == x.length)), henc, ?_⟩
  have hU1' : 1 ≤ x.dedup.length := by
    have hx0 : (0 : Nat) < x.length := by omega
    have hmem : x.get ⟨0, hx0⟩ ∈ x := List.get_mem x 0 hx0
    exact List.length_pos_of_mem (List.mem_dedup.mpr hmem)
  have hUles : x.dedup.length ≤ TotalSymbols := by
    have h1 := (List.nodup_dedup x).length_le_card
    rw [Fintype.card_fin] at h1
    exact h1
  by_cases hU1 : x.dedup.length = 1
  · -- singleton alphabet
    obtain ⟨sym, halpha⟩ : ∃ s, st.unique.map Prod.fst = [s] := by
      have h1 : (st.unique.map Prod.fst).length = 1 := by rw [hlenA, hU1]
      rcases hL : st.unique.map Prod.fst with _ | ⟨s, _ | ⟨t, r⟩⟩
      · rw [hL, List.length_nil] at h1
        omega
      · exact ⟨s, rfl⟩
      · rw [hL, List.length_cons, List.length_cons] at h1
        omega
    have hxall : ∀ q, q < x.length → x[q]? = some sym := by
      intro q hq
      obtain ⟨t, ht⟩ : ∃ t, x[q]? = some t := by
        rw [List.getElem?_eq_getElem hq]
        exact ⟨_, rfl⟩
      have h2 : t ∈ st.unique.map Prod.fst := (hmemA t).mpr (List.getElem?_mem ht)
      rw [halpha, List.mem_singleton] at h2
      rw [h2] at ht
      exact ht
    rw [DC.decode_simple]
    rw [halpha, DC.decode_some_single]
    dsimp only
    rw [List.map_replicate]
    refine congrArg some ?_
    apply List.ext_getElem?
    intro q
    by_cases hq : q < x.length
    · rw [List.getElem?_replicate_of_lt hq, hxall q hq]
    · rw [List.getElem?_eq_none (by rw [List.length_replicate]; omega),
        List.getElem?_eq_none (by omega)]
  · -- at least two distinct symbols
    have hU2 : 2 ≤ x.dedup.length := by omega
    have hdlen : (st.unique.map Prod.snd).length = x.dedup.length := by
      rw [List.length_map, ← hlenA, List.length_map]
    obtain ⟨next1, mtf1, hseed, hm1len, hnext_out, hnext_in, hm_lo, hm_set, hm_hi⟩ :=
      DC.seedSome_sim (st.unique.map Prod.snd ++ D2.filter (fun d => !(d == x.length)))
        (st.unique.map Prod.fst) 0 (fun _ => x.length) DC.MTF.new 0 hnodupA
        (by
          rw [Nat.zero_add, List.length_append, hlenA, hdlen]
          omega)
        (by
          rw [Nat.zero_add, hlenA,
            show DC.MTF.new = List.replicate TotalSymbols (0 : Symb) from rfl,
            List.length_replicate]
          exact hUles)
    have hm1len' : mtf1.length = TotalSymbols := by
      rw [hm1len, show DC.MTF.new = List.replicate TotalSymbols (0 : Symb) from rfl,
        List.length_replicate]
    have haw : mtf1.take x.dedup.length = st.unique.map Prod.fst := by
      apply List.ext_getElem?
      intro q
      by_cases hq : q < x.dedup.length
      · rw [List.getElem?_take_of_lt hq]
        have h1 := hm_set q (by rw [hlenA]; exact hq)
        rw [Nat.zero_add] at h1
        exact h1
      · rw [List.getElem?_eq_none, List.getElem?_eq_none]
        · rw [hlenA]
          omega
        · rw [List.length_take]
          omega
    have hnext1 : ∀ s, next1 s = DC.nextSpec x 0 s := by
      intro s
      by_cases hs : s ∈ st.unique.map Prod.fst
      · obtain ⟨j, hj⟩ := List.mem_iff_getElem?.mp hs
        obtain ⟨d, hd1, hd2⟩ := hnext_in j s hj
        rw [Nat.zero_add] at hd1
        obtain ⟨hjU, -⟩ := List.getElem?_eq_some.mp hj
        rw [List.getElem?_append_left (by rw [hdlen, ← hlenA]; exact hjU)] at hd1
        rw [List.getElem?_map] at hj hd1
        obtain ⟨p, hp1, hp2⟩ := Option.map_eq_some'.mp hj
        rw [hp1] at hd1
        have hd3 : d = p.2 := by
          have : Option.map Prod.snd (some p) = some d := hd1
          exact (Option.some.inj this).symm
        rw [hd2, hd3, ← hp2]
        exact (hfirstA p (List.getElem?_mem hp1)).symm
      · rw [hnext_out s hs]
        exact (DC.nextSpec_notin x 0 s (fun hc => hs ((hmemA s).mpr hc))).symm
    have hzt : DC.zeroTail mtf1 x.dedup.length = mtf1 := by
      apply DC.zeroTail_id mtf1 _ hUles
      intro r hr1 hr2
      have h1 := hm_hi r (by rw [Nat.zero_add, hlenA]; exact hr1)
      rw [h1, show DC.MTF.new = List.replicate TotalSymbols (0 : Symb) from rfl]
      exact List.getElem?_replicate_of_lt hr2
    have hinv0 : DC.DecInv x D2
        (st.unique.map Prod.snd ++ D2.filter (fun d => !(d == x.length))) 0
        ⟨List.replicate x.length 0, mtf1, next1, x.dedup.length⟩ := by
      refine ⟨Nat.zero_le _, List.length_replicate _ _,
        fun q hq => absurd hq (Nat.not_lt_zero q), hm1len', ?_, ?_, hnext1, ?_⟩
      · intro s
        rw [haw]
        exact hmemA s
      · rw [haw]
        exact hsortA
      · show (st.unique.map Prod.snd ++ D2.filter (fun d => !(d == x.length))).drop
            x.dedup.length = (D2.drop 0).filter (fun d => !(d == x.length))
        rw [List.drop_zero]
        exact List.drop_left' hdlen
    obtain ⟨st', hloop, hstout⟩ := DC.decodeLoop_sim x D2
      (st.unique.map Prod.snd ++ D2.filter (fun d => !(d == x.length)))
      hlastval hgapval hU2
      ((st.unique.map Prod.snd ++ D2.filter (fun d => !(d == x.length))).length + 2) 0
      ⟨List.replicate x.length 0, mtf1, next1, x.dedup.length⟩ hinv0 (by omega)
    obtain ⟨a0, b0, rest0, halpha⟩ : ∃ a b r, st.unique.map Prod.fst = a :: b :: r := by
      have h1 : 2 ≤ (st.unique.map Prod.fst).length := by rw [hlenA]; exact hU2
      rcases hL : st.unique.map Prod.fst with _ | ⟨s, _ | ⟨t, r⟩⟩
      · rw [hL, List.length_nil] at h1
        omega
      · rw [hL, List.length_cons, List.length_nil] at h1
        omega
      · exact ⟨s, t, r, rfl⟩
    rw [DC.decode_simple]
    rw [halpha, DC.decode_some_cons2, ← halpha]
    simp only [List.length_replicate]
    rw [List.enum_eq_enumFrom, hseed]
    dsimp only
    rw [Nat.zero_add, hlenA, hzt, hloop]
    dsimp only
    rw [hstout]

